import Mathlib

/-!
Verification development for the jesktop ingestion-and-retrieval engine.

Each definition is a shallow embedding of the corresponding Python function in
`src/jesktop` (module and function names are kept).  Machine reals (Python
floats) are modelled as exact rationals; byte strings as `List Nat`; Python
dicts as insertion-ordered association lists; Python exceptions as `Except`.
External collaborators (the tiktoken tokenizer, hash digests, the embedder,
the Markdown image-reference rewriter and the media side effects of a file
pass) are taken as explicit function parameters, since their code is not part
of the repository; concrete instantiations are supplied in the witnesses.
-/

namespace Jesktop

/-- Python whitespace (the characters stripped by `str.strip()` and matched
by the regex class `\s` on ASCII input). -/
def isPySpace (c : Char) : Bool :=
  c == ' ' || c == '\t' || c == '\n' || c == '\x0d' || c == '\x0c' || c == '\x0b'

/-- Python `str.strip()` on a character list. -/
def pyStripL (l : List Char) : List Char :=
  ((l.dropWhile isPySpace).reverse.dropWhile isPySpace).reverse

/-- Python `str.strip()`. -/
def pyStrip (s : String) : String :=
  ⟨pyStripL s.data⟩

/-- ASCII lowering of a string, modelling Python's case-insensitive regex
matching on the ASCII input handled by this code base. -/
def lowerL (l : List Char) : List Char :=
  l.map Char.toLower

/-- Does the needle `t` occur in `s` at position `i`? -/
def occursAt (s t : List Char) (i : Nat) : Bool :=
  t.isPrefixOf (s.drop i)

/-- First position (relative to the scanned suffix) at which `t` occurs. -/
def findFrom (t : List Char) : List Char → Option Nat
  | [] => if t.isEmpty then some 0 else none
  | c :: rest =>
      if t.isPrefixOf (c :: rest) then some 0 else (findFrom t rest).map (· + 1)

/-- Python `str.find(sub, start)`: `-1` when absent, with Python's clamping of
a negative start index. -/
def pyFind (s sub : String) (start : Int) : Int :=
  let n : Int := s.data.length
  let b : Nat := (max (if start < 0 then n + start else start) 0).toNat
  if b > s.data.length then -1
  else
    match findFrom sub.data (s.data.drop b) with
    | some j => (b : Int) + (j : Int)
    | none => -1

/-- Counting loop for `len(re.findall(re.escape(t), s))`: non-overlapping,
leftmost-first; an empty pattern matches at every position including the end
boundary; `skip` consumes the tail of the previous match. -/
def countOccGo (t : List Char) : Nat → List Char → Nat
  | _ + 1, [] => 0
  | skip + 1, _ :: rest => countOccGo t skip rest
  | 0, [] => if t.isEmpty then 1 else 0
  | 0, c :: rest =>
      if t.isPrefixOf (c :: rest) then 1 + countOccGo t (t.length - 1) rest
      else countOccGo t 0 rest

/-- Number of matches `len(re.findall(re.escape(t), s))` on character lists. -/
def countOcc (s t : List Char) : Nat :=
  countOccGo t 0 s

/-- Case-insensitive literal occurrence count,
`len(re.findall(re.escape(t), s, re.IGNORECASE))`. -/
def countOccCI (s t : String) : Nat :=
  countOcc (lowerL s.data) (lowerL t.data)

/-- Accumulating loop splitting into lines that keep their terminator. -/
def linesKeepAux (cur : List Char) : List Char → List (List Char)
  | [] => [cur]
  | '\n' :: rest => (cur ++ ['\n']) :: linesKeepAux [] rest
  | c :: rest => linesKeepAux (cur ++ [c]) rest

/-- Split into lines, each keeping its `'\n'` terminator (the last one has
none); used to locate the line starts where `re.MULTILINE`'s `^` matches. -/
def linesKeep (l : List Char) : List (List Char) :=
  linesKeepAux [] l

/-- Accumulating loop of Python `text.split("\n")`. -/
def pySplitNlAux (cur : List Char) : List Char → List (List Char)
  | [] => [cur]
  | '\n' :: rest => cur :: pySplitNlAux [] rest
  | c :: rest => pySplitNlAux (cur ++ [c]) rest

/-- Python `text.split("\n")` (pieces without terminators; an empty input
yields one empty piece). -/
def pySplitNl (l : List Char) : List (List Char) :=
  pySplitNlAux [] l

/-- The first line of a string, `content.split("\n")[0]`. -/
def firstLine (s : String) : String :=
  ⟨s.data.takeWhile (· ≠ '\n')⟩

/-- Does a (terminator-free) line match the header pattern `^#{1,6}\s+.+$`?
With backtracking taken into account this holds exactly when the line starts
with one to six `#`, the next character is whitespace, and at least one
further character follows the first whitespace character. -/
def isHeaderLine (line : List Char) : Bool :=
  let hashes := (line.takeWhile (· == '#')).length
  match line.dropWhile (· == '#') with
  | c1 :: _ :: _ => decide (1 ≤ hashes) && decide (hashes ≤ 6) && isPySpace c1
  | _ => false

/-- Inner grouping loop of `TextChunker._split_on_headers`: start a new
section before every header line (the zero-width `(?=...)` split). -/
def groupHeaderSections : List (List Char) → List Char → List (List Char)
  | [], cur => [cur]
  | line :: rest, cur =>
      if isHeaderLine (line.takeWhile (· ≠ '\n')) then
        cur :: groupHeaderSections rest line
      else
        groupHeaderSections rest (cur ++ line)

/-- `TextChunker._split_on_headers`. -/
def splitOnHeaders (text : String) : List String :=
  (((groupHeaderSections (linesKeep text.data) []).map fun l => pyStrip ⟨l⟩).filter
    fun s => s ≠ "")

/-- Does a line match `re.match(r"^[\s]*[-*+]|\d+\.", line)`?  The alternation
matches either optional whitespace followed by a list bullet, or leading
digits followed by a dot. -/
def startsListItem (line : List Char) : Bool :=
  (match line.dropWhile isPySpace with
   | c :: _ => c == '-' || c == '*' || c == '+'
   | [] => false) ||
  (let ds := line.takeWhile (·.isDigit)
   decide (ds ≠ []) &&
     (match line.drop ds.length with
      | '.' :: _ => true
      | _ => false))

/-- Accumulating loop of `TextChunker._split_on_paragraphs`: split after an
empty line that is not immediately followed by a list item. -/
def splitOnParagraphsAux : List (List Char) → List (List Char) → List (List (List Char))
  | [], cur => [cur]
  | line :: rest, cur =>
      let cur' := cur ++ [line]
      let isEmpty := (pyStripL line).isEmpty
      let nextIsList := match rest with
        | nxt :: _ => startsListItem nxt
        | [] => false
      if isEmpty && decide (rest ≠ []) && !nextIsList then
        cur' :: splitOnParagraphsAux rest []
      else
        splitOnParagraphsAux rest cur'

/-- `TextChunker._split_on_paragraphs`. -/
def splitOnParagraphs (text : String) : List String :=
  ((splitOnParagraphsAux (pySplitNl text.data) []).map fun part =>
      pyStrip ⟨(part.intersperse ['\n']).flatten⟩).filter fun s => s ≠ ""

/-- Scanner for `re.split(r"(?<=[.!?])\s+", text)`: cut at each maximal
whitespace run preceded by `.`, `!` or `?`; when `skipping`, the separator
run is being consumed. -/
def splitSentGo : Bool → List Char → List Char → List (List Char)
  | _, cur, [] => [cur]
  | true, cur, c :: rest =>
      if isPySpace c then splitSentGo true cur rest
      else splitSentGo false (cur ++ [c]) rest
  | false, cur, c :: rest =>
      if isPySpace c &&
          (match cur.getLast? with
           | some p => p == '.' || p == '!' || p == '?'
           | none => false) then
        cur :: splitSentGo true [] rest
      else
        splitSentGo false (cur ++ [c]) rest

/-- `TextChunker._split_on_sentences`. -/
def splitOnSentences (text : String) : List String :=
  ((splitSentGo false [] text.data).map fun l => pyStrip ⟨l⟩).filter fun s => s ≠ ""

/-- An abstract BPE tokenizer standing for the external
`tiktoken.encoding_for_model("gpt-3.5-turbo")` encoding. -/
structure Tok where
  encode : String → List Nat
  decode : List Nat → String

/-- Token count `len(enc.encode(s))`. -/
def tokCount (tok : Tok) (s : String) : Nat :=
  (tok.encode s).length

/-- A concrete tokenizer with one token per character, used to instantiate
the abstract tokenizer in concrete runs. -/
def charTok : Tok where
  encode s := s.data.map Char.toNat
  decode l := ⟨l.map Char.ofNat⟩

/-- `TextChunker._process_text_chunk`: returns the updated accumulating chunk,
its token count, and any flushed chunks. -/
def processTextChunk (tok : Tok) (maxTokens : Nat) (text currentChunk : String)
    (currentTokens : Nat) : String × Nat × List String :=
  let text := pyStrip text
  if text = "" then (currentChunk, currentTokens, [])
  else
    let textTokens := tokCount tok text
    if currentTokens + textTokens > maxTokens then
      ((text, textTokens, if currentChunk ≠ "" then [pyStrip currentChunk] else []))
    else
      (if currentChunk ≠ "" then currentChunk ++ "\n\n" ++ text else text,
       currentTokens + textTokens, [])

/-- One accumulator step of `TextChunker.chunk_text`, threading
(current chunk, current tokens, emitted chunks). -/
def chunkFoldStep (tok : Tok) (maxTokens : Nat) (st : String × Nat × List String)
    (piece : String) : String × Nat × List String :=
  let (cur', tks', new) := processTextChunk tok maxTokens piece st.1 st.2.1
  (cur', tks', st.2.2 ++ new)

/-- The header → paragraph → sentence cascade of `TextChunker.chunk_text`. -/
def chunkSections (tok : Tok) (maxTokens : Nat) (sections : List String)
    (st : String × Nat × List String) : String × Nat × List String :=
  sections.foldl
    (fun st sec =>
      if tokCount tok sec > maxTokens then
        (splitOnParagraphs sec).foldl
          (fun st para =>
            if tokCount tok para > maxTokens then
              (splitOnSentences para).foldl (chunkFoldStep tok maxTokens) st
            else chunkFoldStep tok maxTokens st para)
          st
      else chunkFoldStep tok maxTokens st sec)
    st

/-- `TextChunker.chunk_text` before the overlap pass. -/
def chunkTextNoOverlap (tok : Tok) (maxTokens : Nat) (text : String) : List String :=
  let (cur, _, chunks) := chunkSections tok maxTokens (splitOnHeaders text) ("", 0, [])
  chunks ++ (if cur ≠ "" then [pyStrip cur] else [])

/-- `TextChunker._add_chunk_overlap`: every chunk after the first is prefixed
with the decoded last `overlap` tokens of its predecessor. -/
def addChunkOverlap (tok : Tok) (overlap : Nat) (chunks : List String) : List String :=
  if overlap == 0 || chunks.length ≤ 1 then chunks
  else
    (chunks.zip (none :: chunks.map some)).map fun (c, prevOpt) =>
      match prevOpt with
      | none => c
      | some prev =>
          let ts := tok.encode prev
          let context := tok.decode (ts.drop (ts.length - overlap))
          "Previous context: " ++ context ++ "\n\n" ++ c

/-- `TextChunker.chunk_text`. -/
def chunkText (tok : Tok) (maxTokens overlap : Nat) (text : String) : List String :=
  addChunkOverlap tok overlap (chunkTextNoOverlap tok maxTokens text)

/-- ASCII lowering of a string. -/
def lowerStr (s : String) : String :=
  ⟨lowerL s.data⟩

/-- The `jesktop.domain.note.Note` pydantic model; timestamps are exact
rationals, field defaults mirror the pydantic defaults. -/
structure Note where
  id : String
  title : String
  path : String
  content : String
  created : ℚ
  modified : ℚ
  outbound_links : List String := []
  inbound_links : List String := []
  embedded_content : List String := []
  tags : List String := []
  folder_path : String := ""
deriving DecidableEq, Repr

/-- The `jesktop.domain.note.Chunk` model (no vector). -/
structure Chunk where
  id : String
  note_id : String
  title : String
  text : String
  start_pos : Int
  end_pos : Int
deriving DecidableEq, Repr

/-- The `jesktop.domain.note.EmbeddedChunk` model; the float32 vector is
modelled as a list of exact rationals. -/
structure EmbeddedChunk where
  id : String
  note_id : String
  title : String
  text : String
  start_pos : Int
  end_pos : Int
  vector : List ℚ
deriving DecidableEq, Repr

/-- The `jesktop.domain.relationships.NoteRelationship` model; the
`relationship_type` literal is kept as a string. -/
structure NoteRelationship where
  source_note_id : String
  target_note_id : String
  relationship_type : String
  context : String := ""
  strength : ℚ := 1
deriving DecidableEq, Repr

/-- The `jesktop.domain.relationships.RelationshipGraph` model; the
`note_clusters` dict is an insertion-ordered association list. -/
structure RelationshipGraph where
  relationships : List NoteRelationship := []
  note_clusters : List (String × List String) := []
deriving DecidableEq, Repr

/-- The `jesktop.domain.image.Image` model; `content` holds the raw bytes. -/
structure Image where
  id : String
  note_id : String
  content : List Nat
  mime_type : String
  relative_path : String
  absolute_path : String
deriving DecidableEq, Repr

/-- The in-memory state of `LocalVectorDB`.  The `_notes` and
`_embedded_chunks` dicts are insertion-ordered lists; every dict is keyed by
the `id` of its value, as all writers key entries that way. -/
structure DB where
  notes : List Note := []
  chunks : List EmbeddedChunk := []
  graph : RelationshipGraph := {}
deriving DecidableEq, Repr

/-- Dict lookup `self._notes.get(note_id)`. -/
def findNote (notes : List Note) (noteId : String) : Option Note :=
  notes.find? (·.id == noteId)

/-- Dict assignment `self._notes[note.id] = note`: replace in place if the
key exists (keeping its position, as Python dicts do), else append. -/
def upsertNote (notes : List Note) (n : Note) : List Note :=
  if notes.any (·.id == n.id) then
    notes.map fun m => if m.id == n.id then n else m
  else notes ++ [n]

/-- Dict assignment `self._embedded_chunks[chunk.id] = chunk`. -/
def upsertChunk (chunks : List EmbeddedChunk) (c : EmbeddedChunk) : List EmbeddedChunk :=
  if chunks.any (·.id == c.id) then
    chunks.map fun d => if d.id == c.id then c else d
  else chunks ++ [c]

/-- The dot product `np.dot` over rational vectors.  Written with the core
`Rat` operations (definitionally the field operations of `ℚ`) so that it
evaluates in the kernel. -/
def dotQ (a b : List ℚ) : ℚ :=
  (List.zipWith Rat.mul a b).foldr Rat.add 0

/-- Decide `x·√W ≥ y·√V` for nonnegative `V`, `W` without square roots, by
sign analysis and squaring.  Used to compare the cosine similarities computed
in `get_closest_chunks` exactly over the reals. -/
def sqrtCmpGe (x y V W : ℚ) : Bool :=
  if 0 ≤ x then
    if 0 ≤ y then decide (Rat.mul (Rat.mul y y) V ≤ Rat.mul (Rat.mul x x) W) else true
  else
    if 0 ≤ y then false else decide (Rat.mul (Rat.mul x x) W ≤ Rat.mul (Rat.mul y y) V)

/-- Comparator for the similarity sort: does chunk `c` have cosine similarity
to `q` at least that of chunk `d`?  With `a = q·v_c`, `b = q·v_d`, this
decides `a/(‖q‖‖v_c‖) ≥ b/(‖q‖‖v_d‖)`, i.e. `a·√(v_d·v_d) ≥ b·√(v_c·v_c)`,
the exact real-number comparison of the float similarities of the source. -/
def simGe (q : List ℚ) (c d : EmbeddedChunk) : Bool :=
  sqrtCmpGe (dotQ q c.vector) (dotQ q d.vector) (dotQ c.vector c.vector)
    (dotQ d.vector d.vector)

/-- Insert into a descending-sorted list, placing `a` before the first `b`
with `r a b` (so that among equal keys the earlier-inserted element stays
first). -/
def insertDesc {α : Type} (r : α → α → Bool) (a : α) : List α → List α
  | [] => [a]
  | b :: bs => if r a b then a :: b :: bs else b :: insertDesc r a bs

/-- Stable descending sort; models Python's stable
`list.sort(key=..., reverse=True)`, which keeps the insertion order of
equal-keyed elements. -/
def stableSortDesc {α : Type} (r : α → α → Bool) : List α → List α
  | [] => []
  | a :: as => insertDesc r a (stableSortDesc r as)

/-- Drop the vector when returning a chunk from search. -/
def stripVector (c : EmbeddedChunk) : Chunk :=
  { id := c.id, note_id := c.note_id, title := c.title, text := c.text,
    start_pos := c.start_pos, end_pos := c.end_pos }

/-- `LocalVectorDB.get_closest_chunks`: cosine similarity against every
stored chunk, stable sort descending, take the first `closest`, strip
vectors. -/
def getClosestChunks (db : DB) (inputVector : List ℚ) (closest : Nat) : List Chunk :=
  ((stableSortDesc (simGe inputVector) db.chunks).take closest).map stripVector

/-- `current_note.outbound_links + current_note.inbound_links`. -/
def noteLinks (n : Note) : List String :=
  n.outbound_links ++ n.inbound_links

/-- All note ids reachable as a link of some stored note; an over-approximation
of the ids the BFS of `get_related_notes` can ever enqueue, used as its
termination measure. -/
def allLinkIds (db : DB) : List String :=
  db.notes.flatMap noteLinks

/-- One neighbour visit of the BFS: skip ids already visited, otherwise mark
visited and enqueue at the given depth. -/
def visitStep (depth : Nat) (s : List String × List (String × Nat)) (lid : String) :
    List String × List (String × Nat) :=
  if s.1.contains lid then s else (s.1 ++ [lid], s.2 ++ [(lid, depth)])

theorem filter_extra_mem_length {l : List String} {x : String} (p : String → Bool)
    (hx : x ∈ l) (hpx : p x = true) :
    (l.filter fun a => p a && a != x).length + 1 ≤ (l.filter p).length := by
  induction l with
  | nil => cases hx
  | cons a rest ih =>
      by_cases hax : a = x
      · have hmono : List.Sublist (rest.filter fun a => p a && a != x) (rest.filter p) := by
          apply List.monotone_filter_right
          intro b hb
          exact ((Bool.and_eq_true _ _).mp hb).1
        have hlen := hmono.length_le
        subst hax
        simp only [List.filter_cons, hpx, bne_self_eq_false, Bool.and_false,
          List.length_cons, if_true]
        simp only [Bool.false_eq_true, if_false]
        omega
      · have hx' : x ∈ rest := by
          rcases List.mem_cons.mp hx with h | h
          · exact absurd h.symm hax
          · exact h
        have hih := ih hx'
        have hbne : (a != x) = true := by simpa using hax
        by_cases hpa : p a = true
        · simp only [List.filter_cons, hpa, hbne, Bool.and_true, List.length_cons, if_true]
          omega
        · have hpa' : p a = false := by
            cases hcase : p a
            · rfl
            · exact absurd hcase hpa
          simp only [List.filter_cons, hpa', Bool.false_and, Bool.false_eq_true, if_false]
          omega

theorem visitFold_measure (allowed : List String) (d : Nat) (ls : List String) :
    ∀ (v : List String) (q : List (String × Nat)),
    (∀ x ∈ ls, x ∈ allowed) →
    (allowed.filter fun a => !(ls.foldl (visitStep d) (v, q)).1.contains a).length
        + (ls.foldl (visitStep d) (v, q)).2.length
      ≤ (allowed.filter fun a => !v.contains a).length + q.length := by
  induction ls with
  | nil => intro v q _; simp
  | cons x rest ih =>
      intro v q hsub
      have hxallowed : x ∈ allowed := hsub x (List.mem_cons_self x rest)
      have hrest : ∀ y ∈ rest, y ∈ allowed := fun y hy => hsub y (List.mem_cons_of_mem x hy)
      by_cases hv : x ∈ v
      · have step : (visitStep d (v, q) x) = (v, q) := by
          simp [visitStep, hv]
        have := ih v q hrest
        simpa [List.foldl_cons, step] using this
      · have step : (visitStep d (v, q) x) = (v ++ [x], q ++ [(x, d)]) := by
          simp [visitStep, hv]
        have ihx := ih (v ++ [x]) (q ++ [(x, d)]) hrest
        have hfil : (allowed.filter fun a => !(v ++ [x]).contains a).length + 1
            ≤ (allowed.filter fun a => !v.contains a).length := by
          have hpx : (fun a => !v.contains a) x = true := by simpa using hv
          have hkey := filter_extra_mem_length (l := allowed)
            (fun a => !v.contains a) hxallowed hpx
          have hsame : (allowed.filter fun a => !(v ++ [x]).contains a)
              = allowed.filter fun a => (!v.contains a) && a != x := by
            apply List.filter_congr
            intro a _
            by_cases hav : a ∈ v <;> by_cases hax : a = x <;>
              simp [hav, hax, bne]
          rw [hsame]
          exact hkey
        calc (allowed.filter fun a =>
                !((x :: rest).foldl (visitStep d) (v, q)).1.contains a).length
              + ((x :: rest).foldl (visitStep d) (v, q)).2.length
            = (allowed.filter fun a =>
                !(rest.foldl (visitStep d) (v ++ [x], q ++ [(x, d)])).1.contains a).length
              + (rest.foldl (visitStep d) (v ++ [x], q ++ [(x, d)])).2.length := by
              rw [List.foldl_cons, step]
          _ ≤ (allowed.filter fun a => !(v ++ [x]).contains a).length
              + (q ++ [(x, d)]).length := ihx
          _ = ((allowed.filter fun a => !(v ++ [x]).contains a).length + 1) + q.length := by
              simp only [List.length_append, List.length_cons, List.length_nil]
              omega
          _ ≤ (allowed.filter fun a => !v.contains a).length + q.length := by omega

/-- The BFS loop of `LocalVectorDB.get_related_notes`: a deque of
`(note_id, depth)` pairs, a visited set, and the accumulated related notes. -/
def relatedLoop (db : DB) (maxDepth : Nat) :
    List (String × Nat) → List String → List Note → List Note
  | [], _, related => related
  | (currentId, depth) :: rest, visited, related =>
      let related' :=
        if 0 < depth then
          match findNote db.notes currentId with
          | some n => related ++ [n]
          | none => related
        else related
      if depth < maxDepth then
        match hn : findNote db.notes currentId with
        | some n =>
            let st := (noteLinks n).foldl (visitStep (depth + 1)) (visited, [])
            relatedLoop db maxDepth (rest ++ st.2) st.1 related'
        | none => relatedLoop db maxDepth rest visited related'
      else relatedLoop db maxDepth rest visited related'
termination_by q v _ => ((allLinkIds db).filter fun a => !v.contains a).length + q.length
decreasing_by
  · have hsub : ∀ x ∈ noteLinks n, x ∈ allLinkIds db := by
      intro x hx
      have hmem : n ∈ db.notes := List.mem_of_find?_eq_some hn
      exact List.mem_flatMap.mpr ⟨n, hmem, hx⟩
    have hm := visitFold_measure (allLinkIds db) (depth + 1) (noteLinks n) visited [] hsub
    simp at hm ⊢
    omega
  · simp
  · simp

/-- `LocalVectorDB.get_related_notes`: empty result when the id is unknown,
otherwise BFS over the undirected union of outbound and inbound links. -/
def getRelatedNotes (db : DB) (noteId : String) (maxDepth : Nat) : List Note :=
  if (findNote db.notes noteId).isNone then []
  else relatedLoop db maxDepth [(noteId, 0)] [noteId] []

/-- `LocalVectorDB.delete_chunks_for_note`: the source collects the ids of the
chunks carrying `note_id` and deletes each from the dict, which on the
insertion-ordered model is exactly a filter. -/
def deleteChunksForNote (db : DB) (noteId : String) : DB :=
  { db with chunks := db.chunks.filter fun c => !(c.note_id == noteId) }

/-- `LocalVectorDB.delete_note`: drop the note entry if present, then delete
its chunks. -/
def deleteNote (db : DB) (noteId : String) : DB :=
  deleteChunksForNote { db with notes := db.notes.filter fun n => !(n.id == noteId) } noteId

/-- `LocalVectorDB.update_note`. -/
def updateNote (db : DB) (n : Note) : DB :=
  { db with notes := upsertNote db.notes n }

/-- `LocalVectorDB.add_chunk`. -/
def addChunk (db : DB) (c : EmbeddedChunk) : DB :=
  { db with chunks := upsertChunk db.chunks c }

/-- `LocalVectorDB.update_relationship_graph`. -/
def updateRelationshipGraph (db : DB) (g : RelationshipGraph) : DB :=
  { db with graph := g }

/-- `LocalVectorDB.get_all_note_ids` (the key set, in insertion order). -/
def getAllNoteIds (db : DB) : List String :=
  db.notes.map (·.id)

/-- `LocalVectorDB.get_notes_by_ids`: dict comprehension over the given ids,
keeping only those present, in the order of `note_ids`. -/
def getNotesByIds (db : DB) (noteIds : List String) : List Note :=
  noteIds.filterMap (findNote db.notes)

/-- The JSON document written by `LocalVectorDB.save`: `model_dump` preserves
the insertion order of the dicts and the order of the relationship list and
cluster map, so the persisted document is the state itself. -/
def vectorStoreDoc (db : DB) : List Note × List EmbeddedChunk × RelationshipGraph :=
  (db.notes, db.chunks, db.graph)

/-- Matches of the header-boost pattern of
`calculate_relationship_strength`.  The source builds it with
`f"#{1, 6}.*{re.escape(target_name)}"`; Python evaluates the f-string
expression `1, 6` to the tuple `(1, 6)`, so the compiled regex is literally
`#(1, 6).*T`: a `#`, the group matching the literal text `1, 6`, any
non-newline run, then the target.  A match therefore requires the five
characters `#1, 6` followed, on the same line, by an occurrence of the
target; the greedy `.*` makes the match run to the last such occurrence.
Scanning is case-insensitive (callers pass lowered text), leftmost and
non-overlapping. -/
def buggyMatchAt (t : List Char) : List Char → Option Nat
  | '#' :: '1' :: ',' :: ' ' :: '6' :: rest =>
      let lineLen := (rest.takeWhile (· ≠ '\n')).length
      match ((List.range (lineLen + 1)).filter fun j => occursAt rest t j).getLast? with
      | some j => some (5 + j + t.length)
      | none => none
  | _ => none

/-- Scanning loop for the buggy header pattern: count non-overlapping
leftmost matches, `skip` consuming the tail of the previous match. -/
def buggyHeaderGo (t : List Char) : Nat → List Char → Nat
  | _ + 1, [] => 0
  | skip + 1, _ :: rest => buggyHeaderGo t skip rest
  | 0, [] => 0
  | 0, l@(_ :: rest) =>
      match buggyMatchAt t l with
      | some len => 1 + buggyHeaderGo t (len - 1) rest
      | none => buggyHeaderGo t 0 rest

/-- Match count of the buggy header-boost regex over `s`. -/
def buggyHeaderCount (s t : List Char) : Nat :=
  buggyHeaderGo t 0 s

/-- Python `min(a, b)` on floats, as an explicit conditional so that it
evaluates in the kernel. -/
def pyMin (a b : ℚ) : ℚ :=
  if a ≤ b then a else b

/-- `analyzer.calculate_relationship_strength`; Python floats modelled as
exact rationals. -/
def calculate_relationship_strength (sourceContent targetName : String) : ℚ :=
  let occurrences : ℚ := countOccCI sourceContent targetName
  let baseStrength := pyMin (Rat.mul occurrences (mkRat 3 10)) 1
  let headerMentions : ℚ :=
    buggyHeaderCount (lowerL sourceContent.data) (lowerL targetName.data)
  let headerBoost := Rat.mul headerMentions (mkRat 2 10)
  pyMin (Rat.add baseStrength headerBoost) 1

/-- Follows the spec's words for C3: `header_occurrences` is the
case-insensitive count of the target note's title on lines beginning with
one to six `#` characters. -/
def specHeaderOccurrences (content title : String) : Nat :=
  ((pySplitNl content.data).filter fun line =>
      let hashes := (line.takeWhile (· == '#')).length
      decide (1 ≤ hashes) && decide (hashes ≤ 6)).foldl
    (fun acc line => acc + countOcc (lowerL line) (lowerL title.data)) 0

/-- Follows the spec's words for C3:
`strength = min(0.3 · occurrences + 0.2 · header_occurrences, 1.0)`. -/
def specRelationshipStrength (content title : String) : ℚ :=
  pyMin (Rat.add (Rat.mul (countOccCI content title : ℚ) (mkRat 3 10))
    (Rat.mul (specHeaderOccurrences content title : ℚ) (mkRat 2 10))) 1

/-- State loop replacing every maximal whitespace run by a single space,
`re.sub(r"\s+", " ", context)`; `inRun` records being inside a run. -/
def collapseWsGo : Bool → List Char → List Char
  | _, [] => []
  | inRun, c :: rest =>
      if isPySpace c then
        if inRun then collapseWsGo true rest else ' ' :: collapseWsGo true rest
      else c :: collapseWsGo false rest

/-- Replace every maximal whitespace run by a single space. -/
def collapseWs (l : List Char) : List Char :=
  collapseWsGo false l

/-- `analyzer.extract_relationship_context`: 100 characters of context around
the first case-insensitive occurrence of the target, stripped, whitespace
collapsed; empty when the target does not occur. -/
def extract_relationship_context (content targetName : String)
    (contextChars : Nat := 100) : String :=
  match findFrom (lowerL targetName.data) (lowerL content.data) with
  | none => ""
  | some i =>
      let start := i - contextChars
      let stop := min content.data.length (i + targetName.data.length + contextChars)
      ⟨collapseWs (pyStripL ((content.data.drop start).take (stop - start)))⟩

/-- `RelationshipGraphBuilder._build_note_relationships`: one wikilink edge
per `(note, target)` with the target a stored non-asset note. -/
def buildNoteRelationships (notes : List Note) : List NoteRelationship :=
  notes.flatMap fun note =>
    note.outbound_links.filterMap fun targetId =>
      match findNote notes targetId with
      | some targetNote =>
          if !(targetId.startsWith "image:" || targetId.startsWith "excalidraw:") then
            some { source_note_id := note.id, target_note_id := targetId,
                   relationship_type := "wikilink",
                   context := extract_relationship_context note.content targetNote.title,
                   strength := calculate_relationship_strength note.content targetNote.title }
          else none
      | none => none

/-- `RelationshipGraphBuilder._build_note_clusters`: group note ids by
non-empty folder path, in note iteration order. -/
def buildNoteClusters (notes : List Note) : List (String × List String) :=
  notes.foldl
    (fun clusters note =>
      if note.folder_path ≠ "" then
        if clusters.any (·.1 == note.folder_path) then
          clusters.map fun kv =>
            if kv.1 == note.folder_path then (kv.1, kv.2 ++ [note.id]) else kv
        else clusters ++ [(note.folder_path, [note.id])]
      else clusters)
    []

/-- `RelationshipGraphBuilder.build_relationships`. -/
def buildRelationships (notes : List Note) : RelationshipGraph :=
  { relationships := buildNoteRelationships notes,
    note_clusters := buildNoteClusters notes }

/-- `RelationshipGraphBuilder.update_inbound_links`: clear all inbound links,
then append each edge's source to its target's inbound links (functional
rendering of the in-place mutation). -/
def updateInboundLinks (notes : List Note) (relationships : List NoteRelationship) :
    List Note :=
  relationships.foldl
    (fun ns rel =>
      if ns.any (·.id == rel.target_note_id) then
        ns.map fun n =>
          if n.id == rel.target_note_id then
            { n with inbound_links := n.inbound_links ++ [rel.source_note_id] }
          else n
      else ns)
    (notes.map fun n => { n with inbound_links := [] })

/-- Python `pathlib.Path(p).name`: the last path component. -/
def baseName (p : String) : String :=
  (((p.splitOn "/").filter fun s => s ≠ "").getLast?).getD ""

/-- Python `pathlib.Path(p).stem`: the name with its last suffix removed;
the suffix exists only when the last dot sits strictly inside the name. -/
def pathStem (p : String) : String :=
  let nm := baseName p
  let cs := nm.data
  match cs.reverse.findIdx? (· == '.') with
  | none => nm
  | some rIdx =>
      let i := cs.length - 1 - rIdx
      if 0 < i ∧ i < cs.length - 1 then ⟨cs.take i⟩ else nm

/-- Dict lookup in an association list. -/
def lookupKey (assoc : List (String × String)) (k : String) : Option String :=
  (assoc.find? (·.1 == k)).map (·.2)

/-- Dict assignment in an association list (replace in place or append). -/
def upsertKey (assoc : List (String × String)) (k v : String) : List (String × String) :=
  if assoc.any (·.1 == k) then
    assoc.map fun kv => if kv.1 == k then (k, v) else kv
  else assoc ++ [(k, v)]

/-- `ReferenceResolver._resolve_single_reference`: exact key, then `+ ".md"`,
then path-stem equality over the mapping items, then a lenient
case-insensitive pass over asset entries. -/
def resolveSingleReference (noteMapping : List (String × String)) (link : String) :
    Option String :=
  match lookupKey noteMapping link with
  | some v => some v
  | none =>
    match lookupKey noteMapping (link ++ ".md") with
    | some v => some v
    | none =>
      match noteMapping.find? fun kv => pathStem kv.1 == link with
      | some kv => some kv.2
      | none =>
        let linkLower := lowerStr link
        match noteMapping.find? fun kv =>
            (kv.2.startsWith "image:" || kv.2.startsWith "excalidraw:") &&
              (lowerStr kv.1 == linkLower || lowerStr (pathStem kv.1) == linkLower) with
        | some kv => some kv.2
        | none => none

/-- `ReferenceResolver.resolve_references`: unresolved links are dropped. -/
def resolveReferences (noteMapping : List (String × String)) (links : List String) :
    List String :=
  links.filterMap (resolveSingleReference noteMapping)

/-- Match attempt for `extract_wikilinks`'s regex
`\[\[([^\]|]+)(?:\|[^\]]*)?\]\]` at the head of a suffix: the target is a
nonempty run without `]` or `|`, optionally followed by a `|display` part;
returns the target and the total match length. -/
def wikiMatchAt : List Char → Option (String × Nat)
  | '[' :: '[' :: rest =>
      let inner := rest.takeWhile fun c => !(c == ']' || c == '|')
      if inner.isEmpty then none
      else
        match rest.drop inner.length with
        | '|' :: rest2 =>
            let disp := rest2.takeWhile (· ≠ ']')
            match rest2.drop disp.length with
            | ']' :: ']' :: _ =>
                some (⟨inner⟩, 2 + inner.length + 1 + disp.length + 2)
            | _ => none
        | ']' :: ']' :: _ => some (⟨inner⟩, 2 + inner.length + 2)
        | _ => none
  | _ => none

/-- Leftmost non-overlapping scan for wikilinks; `skip` consumes the tail of
the previous match. -/
def extractWikilinksGo : Nat → List Char → List String
  | _ + 1, [] => []
  | skip + 1, _ :: rest => extractWikilinksGo skip rest
  | 0, [] => []
  | 0, l@(_ :: rest) =>
      match wikiMatchAt l with
      | some (target, len) => target :: extractWikilinksGo (len - 1) rest
      | none => extractWikilinksGo 0 rest

/-- `ContentExtractor.extract_wikilinks`. -/
def extract_wikilinks (content : String) : List String :=
  extractWikilinksGo 0 content.data

/-- Match attempt for `extract_embedded_content`'s regex
`\!\[\[([^\]]+)\]\]` at the head of a suffix. -/
def embedMatchAt : List Char → Option (String × Nat)
  | '!' :: '[' :: '[' :: rest =>
      let inner := rest.takeWhile (· ≠ ']')
      if inner.isEmpty then none
      else
        match rest.drop inner.length with
        | ']' :: ']' :: _ => some (⟨inner⟩, 3 + inner.length + 2)
        | _ => none
  | _ => none

/-- Leftmost non-overlapping scan for embeds. -/
def extractEmbeddedGo : Nat → List Char → List String
  | _ + 1, [] => []
  | skip + 1, _ :: rest => extractEmbeddedGo skip rest
  | 0, [] => []
  | 0, l@(_ :: rest) =>
      match embedMatchAt l with
      | some (target, len) => target :: extractEmbeddedGo (len - 1) rest
      | none => extractEmbeddedGo 0 rest

/-- `ContentExtractor.extract_embedded_content`. -/
def extract_embedded_content (content : String) : List String :=
  extractEmbeddedGo 0 content.data

/-- The in-memory `_images` dict of `LocalImageStore`, keyed by `image.id`. -/
abbrev ImageStoreState : Type := List Image

/-- `LocalImageStore.add_image`: dict upsert by `image.id` (duplicate ids
overwrite in place). -/
def addImage (imgs : ImageStoreState) (img : Image) : ImageStoreState :=
  if (imgs : List Image).any (·.id == img.id) then
    (imgs : List Image).map fun im => if im.id == img.id then img else im
  else (imgs : List Image) ++ [img]

/-- `LocalImageStore.get_image_id_by_path`: linear scan over the stored
images for a matching `(note_id, relative_path)`. -/
def getImageIdByPath (imgs : ImageStoreState) (noteId relativePath : String) :
    Option String :=
  ((imgs : List Image).find? fun im =>
      im.note_id == noteId && im.relative_path == relativePath).map (·.id)

/-- `LocalImageStore.get_image_ids`. -/
def getImageIds (imgs : ImageStoreState) : List String :=
  (imgs : List Image).map (·.id)

/-- `ContentExtractor._process_single_image`: hash the bytes (SHA-256,
modelled as an abstract digest function), infer the MIME type (abstract
`mimetypes.guess_type`), and upsert the Image keyed by its hash; non-image or
unknown MIME types are skipped. -/
def processSingleImage (sha256Hex : List Nat → String)
    (guessMime : String → Option String) (imgs : ImageStoreState)
    (imagePath originalPath noteId : String) (imageBytes : List Nat) : ImageStoreState :=
  let imageHash := sha256Hex imageBytes
  match guessMime imagePath with
  | none => imgs
  | some m =>
      if m.startsWith "image/" then
        addImage imgs
          { id := imageHash, note_id := noteId, content := imageBytes, mime_type := m,
            relative_path := originalPath, absolute_path := imagePath }
      else imgs

/-- Strict UTF-8 decoding of a byte sequence, as performed by
`open(file, "r", encoding="utf-8").read()`: rejects stray or missing
continuation bytes, overlong forms, surrogates, and values above U+10FFFF. -/
def utf8DecodeAux : List Nat → Option (List Char)
  | [] => some []
  | b :: rest =>
    if b < 0x80 then (utf8DecodeAux rest).map (Char.ofNat b :: ·)
    else if b < 0xC2 then none
    else if b ≤ 0xDF then
      match rest with
      | c1 :: rest' =>
          if 0x80 ≤ c1 ∧ c1 ≤ 0xBF then
            (utf8DecodeAux rest').map (Char.ofNat ((b - 0xC0) * 64 + (c1 - 0x80)) :: ·)
          else none
      | [] => none
    else if b ≤ 0xEF then
      match rest with
      | c1 :: c2 :: rest' =>
          let lo1 := if b = 0xE0 then 0xA0 else 0x80
          let hi1 := if b = 0xED then 0x9F else 0xBF
          if lo1 ≤ c1 ∧ c1 ≤ hi1 ∧ 0x80 ≤ c2 ∧ c2 ≤ 0xBF then
            (utf8DecodeAux rest').map
              (Char.ofNat ((b - 0xE0) * 4096 + (c1 - 0x80) * 64 + (c2 - 0x80)) :: ·)
          else none
      | _ => none
    else if b ≤ 0xF4 then
      match rest with
      | c1 :: c2 :: c3 :: rest' =>
          let lo1 := if b = 0xF0 then 0x90 else 0x80
          let hi1 := if b = 0xF4 then 0x8F else 0xBF
          if lo1 ≤ c1 ∧ c1 ≤ hi1 ∧ 0x80 ≤ c2 ∧ c2 ≤ 0xBF ∧ 0x80 ≤ c3 ∧ c3 ≤ 0xBF then
            (utf8DecodeAux rest').map
              (Char.ofNat
                ((b - 0xF0) * 262144 + (c1 - 0x80) * 4096 + (c2 - 0x80) * 64 + (c3 - 0x80)) :: ·)
          else none
      | _ => none
    else none

/-- Decode a note file's bytes as UTF-8, `none` on malformed input. -/
def utf8Decode (fileBytes : List Nat) : Option String :=
  (utf8DecodeAux fileBytes).map fun cs => (⟨cs⟩ : String)

/-- Hex value of one character, for percent decoding. -/
def hexVal (c : Char) : Option Nat :=
  if '0' ≤ c ∧ c ≤ '9' then some (c.toNat - 48)
  else if 'a' ≤ c ∧ c ≤ 'f' then some (c.toNat - 87)
  else if 'A' ≤ c ∧ c ≤ 'F' then some (c.toNat - 55)
  else none

/-- Percent decoding, `urllib.parse.unquote`: each `%XX` escape yields the
byte `XX`, invalid escapes are kept verbatim.  Single-byte escapes (all this
code base uses) decode exactly as in Python; multi-byte UTF-8 escape
sequences are outside the model. -/
def percentDecodeAux : List Char → List Char
  | [] => []
  | '%' :: a :: b :: rest =>
      match hexVal a, hexVal b with
      | some x, some y => Char.ofNat (16 * x + y) :: percentDecodeAux rest
      | _, _ => '%' :: percentDecodeAux (a :: b :: rest)
  | c :: rest => c :: percentDecodeAux rest

/-- `urllib.parse.unquote` on strings. -/
def unquote (s : String) : String :=
  ⟨percentDecodeAux s.data⟩

/-- Path join `Path(a) / b`, on the normalized slash-separated strings this
model uses (`""` stands for `Path(".")`, which pathlib drops when joining). -/
def joinPath (a b : String) : String :=
  if a = "" then b else a ++ "/" ++ b

/-- Python `Path(p).parent` as a string; `""` stands for `Path(".")`. -/
def dirOf (p : String) : String :=
  match p.data.reverse.dropWhile (· ≠ '/') with
  | [] => ""
  | _ :: rest => ⟨rest.reverse⟩

/-- `PathResolver._resolve_relative_to_note`. -/
def resolveRelativeToNote (noteFile imagePath : String) : String :=
  joinPath (dirOf noteFile) imagePath

/-- `PathResolver._resolve_in_note_assets`. -/
def resolveInNoteAssets (noteFile imagePath : String) : String :=
  joinPath (joinPath (dirOf noteFile) (pathStem noteFile ++ ".assets")) (baseName imagePath)

/-- `PathResolver._resolve_in_attachments`: per attachment folder, first the
direct path, then the note's `.assets` subfolder; each candidate is checked
for existence on disk (the filesystem is the list `fs` of existing paths). -/
def resolveInAttachments (fs : List String) (basePath : String) (folders : List String)
    (noteFile imagePath : String) : Option String :=
  match folders with
  | [] => none
  | f :: rest =>
      let candidate := joinPath (joinPath basePath f) imagePath
      if fs.contains candidate then some candidate
      else
        let noteAssets := joinPath (joinPath (joinPath basePath f)
          (pathStem noteFile ++ ".assets")) (baseName imagePath)
        if fs.contains noteAssets then some noteAssets
        else resolveInAttachments fs basePath rest noteFile imagePath

/-- `PathResolver._resolve_absolute`. -/
def resolveAbsolute (basePath imagePath : String) : String :=
  joinPath basePath imagePath

/-- `PathResolver.resolve_image_path`: percent-decode, then run the four
resolution strategies in order; the loop keeps the first candidate that is
non-`None` and exists on disk (so the existing candidate produced by the
attachments strategy passes the loop's uniform existence re-check). -/
def resolveImagePath (fs : List String) (basePath : String) (folders : List String)
    (noteFile imagePath : String) : Option String :=
  let clean := unquote imagePath
  let c1 := resolveRelativeToNote noteFile clean
  if fs.contains c1 then some c1
  else
    let c2 := resolveInNoteAssets noteFile clean
    if fs.contains c2 then some c2
    else
      match resolveInAttachments fs basePath folders noteFile clean with
      | some c => if fs.contains c then some c else none
      | none =>
          let c4 := resolveAbsolute basePath clean
          if fs.contains c4 then some c4 else none

/-- Follows the spec's words for C7: the flattened candidate list, in the
claimed order — note-relative, note-adjacent assets folder, each attachment
folder (directly, then its `.assets` subfolder), then the base path. -/
def specResolutionCandidates (basePath : String) (folders : List String)
    (noteFile reference : String) : List String :=
  let clean := unquote reference
  [resolveRelativeToNote noteFile clean, resolveInNoteAssets noteFile clean]
    ++ (folders.flatMap fun f =>
        [joinPath (joinPath basePath f) clean,
         joinPath (joinPath (joinPath basePath f) (pathStem noteFile ++ ".assets"))
           (baseName clean)])
    ++ [resolveAbsolute basePath clean]

/-- A markdown file on disk, as the orchestrator sees it: path relative to
the ingestion root, `stat` timestamps, and raw bytes. -/
structure MdFile where
  relPath : String
  mtime : ℚ
  ctime : ℚ
  bytes : List Nat
deriving DecidableEq, Repr

/-- The ingestion folder: the markdown files found by `rglob("*.md")` in
enumeration order, plus the asset files (image files in the order of the
per-extension `rglob` scans, then `.excalidraw` files) that feed the
name-to-id mapping. -/
structure Folder where
  mdFiles : List MdFile := []
  imageFiles : List String := []
  excalidrawFiles : List String := []
deriving DecidableEq, Repr

/-- The orchestrator's collaborators: MD5 and SHA-256 digests, the embedder,
the tokenizer, the chunker configuration, the image-reference rewriter
(`ContentExtractor.replace_image_paths`) and the media-store side effects of
`process_images_in_note` / `process_excalidraw_refs_in_note` — all external
to the embedded control flow and passed as functions. -/
structure IngestParams where
  md5 : String → String
  sha256 : String → String
  embed : String → List ℚ
  tok : Tok
  maxTokens : Nat
  overlap : Nat
  rewriteImagePaths : String → String → String
  mediaStep : ImageStoreState → MdFile → String → ImageStoreState

/-- `IngestionOrchestrator._get_all_markdown_files_for_ingestion`: exclude
`.excalidraw.md` drawing sources. -/
def allMarkdownFiles (folder : Folder) : List MdFile :=
  folder.mdFiles.filter fun f => !(baseName f.relPath).endsWith ".excalidraw.md"

/-- The maximum `modified` timestamp stored in the vector store (`0.0` when
empty), from `IngestionOrchestrator._get_modified_files`. -/
def maxModifiedDB (db : DB) : ℚ :=
  db.notes.foldl (fun acc n => if n.modified > acc then n.modified else acc) 0

/-- `IngestionOrchestrator._get_modified_files`. -/
def modifiedFiles (db : DB) (folder : Folder) : List MdFile :=
  (allMarkdownFiles folder).filter fun f => decide (maxModifiedDB db < f.mtime)

/-- First-occurrence deduplication; stands for materializing a Python set
whose iteration order is unspecified but fixed within a process. -/
def dedupFirst (l : List String) : List String :=
  l.foldl (fun acc x => if acc.contains x then acc else acc ++ [x]) []

/-- The set `{md5(rel_path(f)) : f ∈ files}` of `IngestionOrchestrator.ingest`. -/
def currentNoteIds (params : IngestParams) (folder : Folder) : List String :=
  dedupFirst ((allMarkdownFiles folder).map fun f => params.md5 f.relPath)

/-- `IngestionOrchestrator._get_path_to_file_mapping`: stem, name and
relative path of every markdown file map to its note id; asset files map to
opaque `image:`/`excalidraw:` references; later writes win on collision. -/
def pathToFileMapping (params : IngestParams) (folder : Folder) :
    List (String × String) :=
  let step1 := (allMarkdownFiles folder).foldl
    (fun m f =>
      let noteId := params.md5 f.relPath
      upsertKey (upsertKey (upsertKey m (pathStem f.relPath) noteId)
        (baseName f.relPath) noteId) f.relPath noteId)
    []
  let step2 := folder.imageFiles.foldl
    (fun m p =>
      let imageId := "image:" ++ p
      upsertKey (upsertKey (upsertKey m (pathStem p) imageId) (baseName p) imageId) p imageId)
    step1
  folder.excalidrawFiles.foldl
    (fun m p =>
      let exId := "excalidraw:" ++ p
      upsertKey (upsertKey (upsertKey m (pathStem p) exId) (baseName p) exId) p exId)
    step2

/-- The chunk-position loop of `IngestionOrchestrator._process_file_content`
(lines 210–228): each produced chunk text is searched in `content` forward
from the previous chunk's end with `str.find` (`-1` when absent), and the
chunk stores that position, its end `start_pos + len(chunk_text)`, and the
embedding of the chunk text. -/
def buildChunksAux (embed : String → List ℚ) (content noteId title : String) :
    List String → Nat → Int → List EmbeddedChunk
  | [], _, _ => []
  | chunkStr :: rest, i, currentPos =>
      let startPos := pyFind content chunkStr currentPos
      let endPos := startPos + chunkStr.data.length
      { id := noteId ++ "_" ++ toString i, note_id := noteId, title := title,
        text := chunkStr, start_pos := startPos, end_pos := endPos,
        vector := embed chunkStr }
        :: buildChunksAux embed content noteId title rest (i + 1) endPos

/-- Chunk construction for one note: run the chunker on the rewritten
content, then assign positions with the forward search. -/
def buildChunks (params : IngestParams) (content noteId title : String) :
    List EmbeddedChunk :=
  buildChunksAux params.embed content noteId title
    (chunkText params.tok params.maxTokens params.overlap content) 0 0

/-- `IngestionOrchestrator._process_file_content`: decode the file as UTF-8
(a decode failure raises, modelled as `Except.error`), extract the title,
ingest media, rewrite image references, build the Note and its chunks. -/
def processFileContent (params : IngestParams) (imgs : ImageStoreState) (f : MdFile) :
    Except String (Note × List EmbeddedChunk × ImageStoreState) :=
  match utf8Decode f.bytes with
  | none => .error ("UnicodeDecodeError: " ++ f.relPath)
  | some content0 =>
      let title :=
        if content0.startsWith "#" then
          pyStrip ⟨(firstLine content0).data.dropWhile (· == '#')⟩
        else pathStem f.relPath
      let noteId := params.md5 f.relPath
      let imgs' := params.mediaStep imgs f noteId
      let content := params.rewriteImagePaths content0 noteId
      let note : Note :=
        { id := noteId, title := title, path := f.relPath, content := content,
          created := f.ctime, modified := f.mtime, outbound_links := [],
          embedded_content := [], folder_path := dirOf f.relPath }
      .ok (note, buildChunks params content noteId title, imgs')

/-- The per-file loop of `IngestionOrchestrator._process_modified_files`,
accumulating the notes dict, the chunks dict and the media store; a raised
exception aborts the whole loop. -/
def processModifiedFilesAux (params : IngestParams) :
    List MdFile → List Note × List EmbeddedChunk × ImageStoreState →
    Except String (List Note × List EmbeddedChunk × ImageStoreState)
  | [], acc => .ok acc
  | f :: rest, (notes, chunks, imgs) =>
      match processFileContent params imgs f with
      | .error e => .error e
      | .ok (note, noteChunks, imgs') =>
          processModifiedFilesAux params rest
            (upsertNote notes note, noteChunks.foldl upsertChunk chunks, imgs')

/-- The first stage of `_extract_and_build_relationships` on one note:
re-resolve the wikilinks and embeds from the note's content. -/
def stage1Note (params : IngestParams) (noteMapping : List (String × String))
    (n : Note) : Note :=
  { n with
    outbound_links := resolveReferences noteMapping (extract_wikilinks n.content),
    embedded_content := (extract_embedded_content n.content).map params.sha256 }

/-- `IngestionOrchestrator._extract_and_build_relationships`: re-resolve each
note's wikilinks and embeds from its content, build the graph, update inbound
links; returns the graph together with the mutated notes (the in-place
mutation of the note objects rendered functionally). -/
def extractAndBuildRelationships (params : IngestParams)
    (noteMapping : List (String × String)) (notes : List Note) :
    RelationshipGraph × List Note :=
  let stage1 := notes.map (stage1Note params noteMapping)
  let graph := buildRelationships stage1
  (graph, updateInboundLinks stage1 graph.relationships)

/-- The per-note write-back: the store keeps the mutated object when one
with the same id came out of the build phase. -/
def wbNote (updated : List Note) (n : Note) : Note :=
  match updated.find? (·.id == n.id) with
  | some n' => n'
  | none => n

/-- Write the mutated note objects back into the store's dict: in Python the
dict values and the mutated notes are the same objects. -/
def writeBackNotes (dbNotes updated : List Note) : List Note :=
  dbNotes.map (wbNote updated)

/-- The store state at the end of a successful pass, as a function of the
processed files' output (the deletion of removed notes, the per-note
update/chunk writes, and the relationship rebuild read and write the store
only through the values threaded here, so the split is semantics
preserving). -/
def ingestOk (params : IngestParams) (db0 : DB) (folder : Folder)
    (newNotes : List Note) (newChunks : List EmbeddedChunk) : DB :=
  let currentIds := currentNoteIds params folder
  let deletedIds := (getAllNoteIds db0).filter fun i => !currentIds.contains i
  let db1 := deletedIds.foldl deleteNote db0
  let db2 := newNotes.foldl (fun db n => updateNote (deleteChunksForNote db n.id) n) db1
  let db3 := newChunks.foldl addChunk db2
  let allNotes := getNotesByIds db3 currentIds
  let noteMapping := pathToFileMapping params folder
  let gn := extractAndBuildRelationships params noteMapping allNotes
  { db3 with notes := writeBackNotes db3.notes gn.2, graph := gn.1 }

/-- `IngestionOrchestrator.ingest`: enumerate files, delete removed notes,
process modified files, rebuild the relationship graph, and leave both
stores in their to-be-persisted state.  A per-file decode error propagates
and aborts the pass before anything is saved. -/
def ingest (params : IngestParams) (db0 : DB) (imgs0 : ImageStoreState)
    (folder : Folder) : Except String (DB × ImageStoreState) :=
  match processModifiedFilesAux params (modifiedFiles db0 folder) ([], [], imgs0) with
  | .error e => .error e
  | .ok (newNotes, newChunks, imgs1) =>
      .ok (ingestOk params db0 folder newNotes newChunks, imgs1)

/-- The pair of persisted documents written by `vector_db.save()` and
`image_store.save()` at the end of a pass. -/
def persistedDocs (db : DB) (imgs : ImageStoreState) :
    (List Note × List EmbeddedChunk × RelationshipGraph) × List Image :=
  (vectorStoreDoc db, imgs)

theorem find?_filter_of_imp {α : Type} (l : List α) (p q : α → Bool)
    (h : ∀ x, p x = true → q x = true) : (l.filter q).find? p = l.find? p := by
  induction l with
  | nil => rfl
  | cons a rest ih =>
      by_cases hpa : p a = true
      · rw [List.filter_cons, h a hpa]
        simp [List.find?_cons, hpa]
      · have hpa' : p a = false := by
          cases hc : p a
          · rfl
          · exact absurd hc hpa
        by_cases hqa : q a = true
        · rw [List.filter_cons, hqa]
          simp only [if_true, List.find?_cons, hpa']
          exact ih
        · have hqa' : q a = false := by
            cases hc : q a
            · rfl
            · exact absurd hc hqa
          rw [List.filter_cons, hqa']
          simp only [Bool.false_eq_true, if_false, List.find?_cons, hpa']
          exact ih

/-- C9: `delete_note` is total for every `note_id`, present or not: afterwards
no note with that id and no chunk carrying that `note_id` remains, every other
note is still found unchanged, exactly the chunks of other notes remain, and
the relationship graph is untouched. -/
theorem deleteNote_frame (db : DB) (noteId : String) :
    findNote (deleteNote db noteId).notes noteId = none ∧
    (∀ other, other ≠ noteId →
      findNote (deleteNote db noteId).notes other = findNote db.notes other) ∧
    (∀ c, c ∈ (deleteNote db noteId).chunks ↔ c ∈ db.chunks ∧ c.note_id ≠ noteId) ∧
    (deleteNote db noteId).graph = db.graph := by
  refine ⟨?_, ?_, ?_, rfl⟩
  · apply List.find?_eq_none.mpr
    intro n hn
    have := (List.mem_filter.mp hn).2
    simpa using this
  · intro other hother
    apply find?_filter_of_imp
    intro n hn
    have hid : n.id = other := by simpa using hn
    simp [hid, hother]
  · intro c
    simp [deleteNote, deleteChunksForNote, List.mem_filter]

def exDb9 : DB :=
  { notes := [{ id := "gone", title := "g", path := "g.md", content := "x",
                created := 1, modified := 1 },
              { id := "kept", title := "k", path := "k.md", content := "y",
                created := 1, modified := 1 }],
    chunks := [{ id := "gone_0", note_id := "gone", title := "g", text := "x",
                 start_pos := 0, end_pos := 1, vector := [1] },
               { id := "kept_0", note_id := "kept", title := "k", text := "y",
                 start_pos := 0, end_pos := 1, vector := [1] },
               { id := "orphan_0", note_id := "orphan", title := "o", text := "z",
                 start_pos := 0, end_pos := 1, vector := [1] }] }

theorem deleteNote_frame_witness :
    findNote (deleteNote exDb9 "gone").notes "gone" = none ∧
    findNote (deleteNote exDb9 "gone").notes "kept" = findNote exDb9.notes "kept" ∧
    (({ id := "orphan_0", note_id := "orphan", title := "o", text := "z",
        start_pos := 0, end_pos := 1, vector := [1] } : EmbeddedChunk)
      ∈ (deleteNote exDb9 "orphan").chunks ↔
      ({ id := "orphan_0", note_id := "orphan", title := "o", text := "z",
         start_pos := 0, end_pos := 1, vector := [1] } : EmbeddedChunk)
        ∈ exDb9.chunks ∧ "orphan" ≠ "orphan") :=
  ⟨(deleteNote_frame exDb9 "gone").1,
   (deleteNote_frame exDb9 "gone").2.1 "kept" (by decide),
   (deleteNote_frame exDb9 "orphan").2.2.1 _⟩

/-- C10: `get_related_notes` returns the empty list, rather than failing, for
every `note_id` absent from the store and every `max_depth`. -/
theorem getRelatedNotes_unknown (db : DB) (noteId : String) (maxDepth : Nat)
    (h : findNote db.notes noteId = none) :
    getRelatedNotes db noteId maxDepth = [] := by
  simp [getRelatedNotes, h]

def exDb10 : DB :=
  { notes := [{ id := "n1", title := "t", path := "n1.md", content := "c",
                created := 0, modified := 0, outbound_links := ["n2"] }] }

theorem getRelatedNotes_unknown_witness :
    getRelatedNotes exDb10 "missing" 2 = [] :=
  getRelatedNotes_unknown exDb10 "missing" 2 (by with_unfolding_all rfl)

/-- C3: the header boost of `calculate_relationship_strength` never fires on a
markdown header.  The pattern is built with `f"#{1, 6}.*{...}"`, and Python
evaluates `{1, 6}` inside the f-string to the tuple `(1, 6)`, so the compiled
regex matches the literal text `#1, 6` rather than one-to-six `#` characters.
On the header line `# Pensieve` with target `Pensieve` the code yields 0.3
while the spec formula yields 0.5; conversely the nonsense text
`#1, 6 Pensieve` does receive the boost, confirming the slip. -/
theorem calculate_relationship_strength_header_bug :
    calculate_relationship_strength "# Pensieve" "Pensieve" = mkRat 3 10 ∧
    specRelationshipStrength "# Pensieve" "Pensieve" = mkRat 1 2 ∧
    calculate_relationship_strength "#1, 6 Pensieve" "Pensieve" = mkRat 1 2 :=
  ⟨by with_unfolding_all rfl, by with_unfolding_all rfl, by with_unfolding_all rfl⟩

/-- C4 (amended): duplicate bytes share one image id, but `add_image` keys the
store by that id alone, so the second note's `(note_id, relative_path)`
overwrites the first's: after both adds the store holds a single record, the
lookup succeeds for the note that added last and returns `none` for the
earlier note. -/
theorem addImage_duplicate_bytes_overwrites (hash : String) (imageBytes : List Nat)
    (noteA pathA noteB pathB mimeA mimeB absA absB : String)
    (hne : ¬(noteB = noteA ∧ pathB = pathA)) :
    getImageIdByPath (addImage (addImage []
        ⟨hash, noteA, imageBytes, mimeA, pathA, absA⟩)
        ⟨hash, noteB, imageBytes, mimeB, pathB, absB⟩) noteB pathB = some hash ∧
    getImageIdByPath (addImage (addImage []
        ⟨hash, noteA, imageBytes, mimeA, pathA, absA⟩)
        ⟨hash, noteB, imageBytes, mimeB, pathB, absB⟩) noteA pathA = none ∧
    getImageIds (addImage (addImage []
        ⟨hash, noteA, imageBytes, mimeA, pathA, absA⟩)
        ⟨hash, noteB, imageBytes, mimeB, pathB, absB⟩) = [hash] := by
  have hstore : addImage (addImage [] ⟨hash, noteA, imageBytes, mimeA, pathA, absA⟩)
      ⟨hash, noteB, imageBytes, mimeB, pathB, absB⟩
      = [⟨hash, noteB, imageBytes, mimeB, pathB, absB⟩] := by
    simp [addImage]
  rw [hstore]
  refine ⟨by simp [getImageIdByPath], ?_, by simp [getImageIds]⟩
  simp only [getImageIdByPath, List.find?]
  have hcond : (noteB == noteA && pathB == pathA) = false := by
    by_cases h1 : noteB = noteA
    · by_cases h2 : pathB = pathA
      · exact absurd ⟨h1, h2⟩ hne
      · simp [h1, h2]
    · simp [h1]
  simp [hcond]

def exImg4A : Image :=
  { id := "h", note_id := "noteA", content := [7, 7], mime_type := "image/png",
    relative_path := "img.png", absolute_path := "x" }

def exImg4B : Image :=
  { id := "h", note_id := "noteB", content := [7, 7], mime_type := "image/png",
    relative_path := "img2.png", absolute_path := "y" }

/-- C4 counterexample: two notes reference image files with identical bytes
(hence the identical id `"h"`); after both are ingested, the `(note_id,
relative_path)` lookup for the first note returns `none`, not the shared
image id — the store did not retain one index entry per pair. -/
theorem image_lookup_duplicate_bytes_cex :
    exImg4A.content = exImg4B.content ∧ exImg4A.id = exImg4B.id ∧
    getImageIdByPath (addImage (addImage [] exImg4A) exImg4B) "noteA" "img.png" = none ∧
    getImageIdByPath (addImage (addImage [] exImg4A) exImg4B) "noteB" "img2.png" = some "h" :=
  ⟨rfl, rfl, by with_unfolding_all rfl, by with_unfolding_all rfl⟩

theorem resolveInAttachments_eq_find (fs : List String) (basePath : String)
    (folders : List String) (noteFile clean : String) :
    resolveInAttachments fs basePath folders noteFile clean
      = (folders.flatMap fun f =>
          [joinPath (joinPath basePath f) clean,
           joinPath (joinPath (joinPath basePath f) (pathStem noteFile ++ ".assets"))
             (baseName clean)]).find? fun c => fs.contains c := by
  induction folders with
  | nil => rfl
  | cons f rest ih =>
      by_cases hd : joinPath (joinPath basePath f) clean ∈ fs
      · simp [resolveInAttachments, hd]
      · by_cases ha : joinPath (joinPath (joinPath basePath f)
            (pathStem noteFile ++ ".assets")) (baseName clean) ∈ fs
        · simp [resolveInAttachments, hd, ha]
        · simp [resolveInAttachments, hd, ha, ih]

/-- C7: `resolve_image_path` percent-decodes the reference and returns the
first existing candidate of the claimed ordered list — note-relative, the
note-adjacent `{stem}.assets` folder, each configured attachment folder
(directly, then its `{stem}.assets` subfolder), finally the base path; in
particular, whenever the note-relative candidate exists it is returned, so a
note-relative copy beats any attachment-folder copy. -/
theorem resolveImagePath_spec (fs : List String) (basePath : String)
    (folders : List String) (noteFile reference : String) :
    resolveImagePath fs basePath folders noteFile reference
      = (specResolutionCandidates basePath folders noteFile reference).find?
          (fun c => fs.contains c) ∧
    (fs.contains (resolveRelativeToNote noteFile (unquote reference)) = true →
      resolveImagePath fs basePath folders noteFile reference
        = some (resolveRelativeToNote noteFile (unquote reference))) := by
  constructor
  · by_cases h1 : resolveRelativeToNote noteFile (unquote reference) ∈ fs
    · simp [resolveImagePath, specResolutionCandidates, h1]
    · by_cases h2 : resolveInNoteAssets noteFile (unquote reference) ∈ fs
      · simp [resolveImagePath, specResolutionCandidates, h1, h2]
      · have hrw := resolveInAttachments_eq_find fs basePath folders noteFile
          (unquote reference)
        cases hatt : resolveInAttachments fs basePath folders noteFile (unquote reference) with
        | some c =>
            have hfind := hrw ▸ hatt
            have hc : fs.contains c = true := List.find?_some hfind
            have hcm : c ∈ fs := by simpa using hc
            simp at hfind
            simp [h1, h2, hatt, hcm, hfind, resolveImagePath, specResolutionCandidates]
        | none =>
            have hfind := hrw ▸ hatt
            simp at hfind
            have hnone : (List.findSome? (fun x =>
                List.find? (fun c => decide (c ∈ fs))
                  [joinPath (joinPath basePath x) (unquote reference),
                   joinPath (joinPath (joinPath basePath x) (pathStem noteFile ++ ".assets"))
                     (baseName (unquote reference))]) folders) = none := by
              rw [List.findSome?_eq_none_iff]
              intro x hx
              have hx2 := hfind x hx
              simp [List.find?_cons, hx2.1, hx2.2]
            simp [h1, h2, hatt, resolveImagePath, specResolutionCandidates, hnone]
  · intro h1
    have h1' : resolveRelativeToNote noteFile (unquote reference) ∈ fs := by
      simpa using h1
    simp [resolveImagePath, h1']

theorem updateInboundLinks_foldl (notes : List Note) (rels : List NoteRelationship) :
    ∀ F : Note → List String,
    (rels.foldl
        (fun ns rel =>
          if ns.any (·.id == rel.target_note_id) then
            ns.map fun n =>
              if n.id == rel.target_note_id then
                { n with inbound_links := n.inbound_links ++ [rel.source_note_id] }
              else n
          else ns)
        (notes.map fun n => { n with inbound_links := F n }))
      = notes.map fun n =>
          let inb := F n ++ (rels.filter fun r => r.target_note_id == n.id).map fun r => r.source_note_id
          { n with inbound_links := inb } := by
  induction rels with
  | nil => intro F; simp
  | cons rel rest ih =>
      intro F
      rw [List.foldl_cons]
      have hany : ((notes.map fun n => { n with inbound_links := F n }).any
          (·.id == rel.target_note_id)) = notes.any (·.id == rel.target_note_id) := by
        rw [List.any_map]
        rfl
      by_cases hcase : notes.any (·.id == rel.target_note_id) = true
      · rw [if_pos (by rw [hany]; exact hcase)]
        have hmap : ((notes.map fun n => { n with inbound_links := F n }).map fun n =>
              if n.id == rel.target_note_id then
                { n with inbound_links := n.inbound_links ++ [rel.source_note_id] }
              else n)
            = notes.map fun n =>
                { n with inbound_links :=
                    if n.id == rel.target_note_id then F n ++ [rel.source_note_id]
                    else F n } := by
          rw [List.map_map]
          apply List.map_congr_left
          intro m _
          by_cases hm : m.id = rel.target_note_id
          · simp [Function.comp, hm]
          · simp [Function.comp, hm]
        rw [hmap]
        have hrw := ih fun n =>
          if n.id == rel.target_note_id then F n ++ [rel.source_note_id] else F n
        rw [hrw]
        apply List.map_congr_left
        intro m _
        by_cases hm : m.id = rel.target_note_id
        · have ht : (rel.target_note_id == m.id) = true := by simp [hm]
          simp [hm, List.filter_cons, ht]
        · have ht : (rel.target_note_id == m.id) = false := by
            simp
            intro hc
            exact absurd hc.symm hm
          simp [hm, List.filter_cons, ht]
      · rw [if_neg (by rw [hany]; exact hcase)]
        rw [ih F]
        apply List.map_congr_left
        intro m hm
        have hfalse : (m.id == rel.target_note_id) = false := by
          have := List.any_eq_false.mp (by
            cases hc : notes.any (·.id == rel.target_note_id)
            · rfl
            · exact absurd hc hcase) m hm
          cases hc : (m.id == rel.target_note_id)
          · rfl
          · exact absurd hc this
        have ht : (rel.target_note_id == m.id) = false := by
          simp at hfalse ⊢
          intro hc
          exact absurd hc.symm hfalse
        simp [List.filter_cons, ht]

/-- Closed form of `update_inbound_links`: inbound links are cleared, then
every note's inbound list is exactly the sources of the relationships whose
target is that note (every emitted relationship's target is a stored note, so
the membership guard never drops an edge for a stored note). -/
theorem updateInboundLinks_closed (notes : List Note) (rels : List NoteRelationship) :
    updateInboundLinks notes rels
      = notes.map fun n =>
          let inb := (rels.filter fun r => r.target_note_id == n.id).map fun r => r.source_note_id
          { n with inbound_links := inb } := by
  have h := updateInboundLinks_foldl notes rels fun _ => []
  simpa [updateInboundLinks] using h

/-- C8: after the relationship-build phase, for every note in the updated
set, an id is in its `inbound_links` exactly when the graph holds a
relationship with that source and this note as target. -/
theorem inboundLinks_match_graph (notes : List Note) (n : Note)
    (hn : n ∈ updateInboundLinks notes (buildNoteRelationships notes)) (s : String) :
    s ∈ n.inbound_links ↔
      ∃ r ∈ buildNoteRelationships notes,
        r.target_note_id = n.id ∧ r.source_note_id = s := by
  rw [updateInboundLinks_closed] at hn
  obtain ⟨m, _, rfl⟩ := List.mem_map.mp hn
  simp only [List.mem_map, List.mem_filter]
  constructor
  · rintro ⟨r, ⟨hr, ht⟩, hs⟩
    exact ⟨r, hr, by simpa using ht, hs⟩
  · rintro ⟨r, hr, ht, hs⟩
    exact ⟨r, ⟨hr, by simpa using ht⟩, hs⟩

def c8notes : List Note :=
  [{ id := "idA", title := "a", path := "a.md", content := "",
     created := 0, modified := 0 },
   { id := "idB", title := "b", path := "b.md", content := "mentions a",
     created := 0, modified := 0, outbound_links := ["idA"] }]

theorem findFrom_none_no_prefix {t l : List Char} (h : findFrom t l = none) :
    ∀ k, t.isPrefixOf (l.drop k) = false := by
  induction l with
  | nil =>
      intro k
      simp only [findFrom] at h
      cases ht : t.isEmpty
      · cases t with
        | nil => simp [List.isEmpty] at ht
        | cons a t' => simp [List.isPrefixOf]
      · simp [ht] at h
  | cons c rest ih =>
      intro k
      simp only [findFrom] at h
      by_cases hp : t.isPrefixOf (c :: rest) = true
      · simp [hp] at h
      · have hp' : t.isPrefixOf (c :: rest) = false := by
          cases hc : t.isPrefixOf (c :: rest)
          · rfl
          · exact absurd hc hp
        rw [hp'] at h
        simp only [Bool.false_eq_true, if_false] at h
        have h' : findFrom t rest = none := by
          cases hr : findFrom t rest
          · rfl
          · rw [hr] at h; simp at h
        cases k with
        | zero => simpa using hp'
        | succ k' => exact ih h' k'

theorem findFrom_some_prefix {t l : List Char} {j : Nat} (h : findFrom t l = some j) :
    t.isPrefixOf (l.drop j) = true := by
  induction l generalizing j with
  | nil =>
      simp only [findFrom] at h
      cases he : t.isEmpty
      · simp [he] at h
      · rw [he, if_pos rfl] at h
        cases h
        cases t with
        | nil => rfl
        | cons a t' => simp [List.isEmpty] at he
  | cons c rest ih =>
      simp only [findFrom] at h
      by_cases hp : t.isPrefixOf (c :: rest) = true
      · rw [if_pos hp] at h
        cases h
        simpa using hp
      · have hp' : t.isPrefixOf (c :: rest) = false := by
          cases hc : t.isPrefixOf (c :: rest)
          · rfl
          · exact absurd hc hp
        rw [hp', if_neg (by simp)] at h
        rcases Option.map_eq_some.mp h with ⟨j', hj', rfl⟩
        exact ih hj'

/-- If the needle `p` never occurs in `s`, then no string extending `p` is
found by `str.find`, from any start position. -/
theorem pyFind_superstring_neg (s p u : String)
    (hno : findFrom p.data s.data = none) (start : Int) :
    pyFind s (p ++ u) start = -1 := by
  have hnone : ∀ b : Nat, findFrom (p ++ u).data (s.data.drop b) = none := by
    intro b
    cases hf : findFrom (p ++ u).data (s.data.drop b) with
    | none => rfl
    | some j =>
        exfalso
        have hocc := findFrom_some_prefix hf
        have hpu : p.data.isPrefixOf ((s.data.drop b).drop j) = true := by
          rw [ List.isPrefixOf_iff_prefix] at hocc ⊢
          have hpre : p.data <+: (p ++ u).data := by
            rw [String.data_append]
            exact ⟨u.data, rfl⟩
          exact hpre.trans hocc
        rw [List.drop_drop] at hpu
        have hnp := findFrom_none_no_prefix hno (b + j)
        rw [hnp] at hpu
        cases hpu
  unfold pyFind
  simp only [hnone, ite_self]

/-- `str.find` returns `-1` for any needle that extends a string `p` never
occurring in `s`, from any start position. -/
theorem pyFind_prefixed_neg (s sub p : String)
    (hpre : ∃ u, sub.data = p.data ++ u)
    (hno : findFrom p.data s.data = none) (start : Int) :
    pyFind s sub start = -1 := by
  obtain ⟨u, hu⟩ := hpre
  have hsub : sub = p ++ (⟨u⟩ : String) := by
    apply String.ext
    rw [hu, String.data_append]
  rw [hsub]
  exact pyFind_superstring_neg s p ⟨u⟩ hno start

/-- With a nonzero overlap and at least two chunks, every chunk after the
first produced by `_add_chunk_overlap` starts with the literal
`"Previous context: "`. -/
theorem addChunkOverlap_tail_prev (tok : Tok) (overlap : Nat) (chunks : List String)
    (hov : overlap ≠ 0) (hlen : 1 < chunks.length) :
    ∀ c ∈ (addChunkOverlap tok overlap chunks).drop 1,
      ∃ u, c.data = ("Previous context: " : String).data ++ u := by
  intro c hc
  rcases chunks with _ | ⟨c0, _ | ⟨c1, rest⟩⟩
  · simp at hlen
  · simp at hlen
  · unfold addChunkOverlap at hc
    split at hc
    next h => exact absurd h (by simp [hov])
    next h =>
      rw [List.zip_cons_cons, List.map_cons, List.drop_one, List.tail_cons] at hc
      rw [List.mem_map] at hc
      obtain ⟨⟨a, b⟩, hab, rfl⟩ := hc
      have hb : b ∈ (c0 :: c1 :: rest).map some := (List.of_mem_zip hab).2
      rcases List.mem_map.mp hb with ⟨x, _, rfl⟩
      refine ⟨(tok.decode ((tok.encode x).drop ((tok.encode x).length - overlap))).data
        ++ ("\n\n" : String).data ++ a.data, ?_⟩
      show ("Previous context: "
        ++ tok.decode ((tok.encode x).drop ((tok.encode x).length - overlap))
        ++ "\n\n" ++ a).data = _
      simp [String.data_append, List.append_assoc]

/-- If every chunk string in a list extends a needle that never occurs in
`content`, the position loop stores `start_pos = -1` and
`end_pos = -1 + len(chunk_text)` for each of them, whatever the running
search position. -/
theorem buildChunksAux_all_neg (embed : String → List ℚ)
    (content noteId title p : String)
    (hno : findFrom p.data content.data = none) :
    ∀ (chunks : List String), (∀ c ∈ chunks, ∃ u, c.data = p.data ++ u) →
    ∀ (i : Nat) (cp : Int),
      ∀ ch ∈ buildChunksAux embed content noteId title chunks i cp,
        ch.start_pos = -1 ∧ ch.end_pos = -1 + (ch.text.data.length : Int) := by
  intro chunks
  induction chunks with
  | nil =>
      intro _ i cp ch hch
      simp [buildChunksAux] at hch
  | cons c0 rest ih =>
      intro hpre i cp ch hch
      have h0 : pyFind content c0 cp = -1 :=
        pyFind_prefixed_neg content c0 p (hpre c0 (List.mem_cons_self c0 rest)) hno cp
      simp only [buildChunksAux] at hch
      rcases List.mem_cons.mp hch with rfl | hch
      · constructor <;> simp [h0]
      · exact ih (fun c hcm => hpre c (List.mem_cons_of_mem c0 hcm)) (i + 1) _ ch hch

/-- C1 (amended): the position loop of `_process_file_content` searches the
full stored chunk text — including the prepended `"Previous context: "`
overlap block — in the rewritten content, not the pre-overlap slice.
Consequently, with a nonzero overlap, whenever the chunker emits more than
one chunk and the literal `"Previous context: "` does not occur in the
content, every chunk after the first stores `start_pos = -1` and
`end_pos = -1 + len(chunk_text)` instead of the position of its pre-overlap
slice. -/
theorem buildChunks_overlap_tail_neg (params : IngestParams)
    (content noteId title : String)
    (hov : params.overlap ≠ 0)
    (hmulti : 1 < (chunkTextNoOverlap params.tok params.maxTokens content).length)
    (hno : findFrom ("Previous context: " : String).data content.data = none) :
    ∀ ch ∈ (buildChunks params content noteId title).drop 1,
      ch.start_pos = -1 ∧ ch.end_pos = -1 + (ch.text.data.length : Int) := by
  intro ch hch
  have htail := addChunkOverlap_tail_prev params.tok params.overlap
    (chunkTextNoOverlap params.tok params.maxTokens content) hov hmulti
  have hct : addChunkOverlap params.tok params.overlap
      (chunkTextNoOverlap params.tok params.maxTokens content)
      = chunkText params.tok params.maxTokens params.overlap content := rfl
  unfold buildChunks at hch
  rcases hcs : chunkText params.tok params.maxTokens params.overlap content
    with _ | ⟨c0, rest⟩
  · rw [hcs] at hch
    simp [buildChunksAux] at hch
  · rw [hcs] at hch
    simp only [buildChunksAux, List.drop_one, List.tail_cons] at hch
    rw [hct, hcs, List.drop_one, List.tail_cons] at htail
    exact buildChunksAux_all_neg params.embed content noteId title
      "Previous context: " hno rest htail 1 _ ch hch

theorem dotQ_nil_left (b : List ℚ) : dotQ [] b = 0 := rfl

theorem dotQ_nil_right (a : List ℚ) : dotQ (a₀ :: a) [] = 0 := rfl

theorem dotQ_cons (x y : ℚ) (xs ys : List ℚ) :
    dotQ (x :: xs) (y :: ys) = x * y + dotQ xs ys := rfl

theorem dotQ_self_nonneg (a : List ℚ) : 0 ≤ dotQ a a := by
  induction a with
  | nil => simp [dotQ_nil_left]
  | cons x xs ih =>
      rw [dotQ_cons]
      nlinarith [sq_nonneg x]

/-- Cauchy–Schwarz for the list dot product over `ℚ`. -/
theorem dotQ_sq_le (a : List ℚ) : ∀ b : List ℚ,
    dotQ a b * dotQ a b ≤ dotQ a a * dotQ b b := by
  induction a with
  | nil => intro b; simp [dotQ_nil_left]
  | cons x xs ih =>
      intro b
      cases b with
      | nil => simp [dotQ_nil_right, dotQ_self_nonneg, mul_nonneg]
      | cons y ys =>
          have hA := dotQ_self_nonneg xs
          have hB := dotQ_self_nonneg ys
          have hd := ih ys
          rw [dotQ_cons, dotQ_cons, dotQ_cons]
          rcases eq_or_lt_of_le hA with hA0 | hApos
          · have hd0 : dotQ xs ys = 0 := by nlinarith [hd, hB]
            rw [hd0, ← hA0]
            nlinarith [sq_nonneg (x * y), sq_nonneg x, hB]
          · nlinarith [sq_nonneg (x * dotQ xs ys - dotQ xs xs * y), hd, hA, hB,
              mul_pos hApos hApos, sq_nonneg (x * y)]

/-- When a chunk's vector is the query itself, its similarity comparator beats
every chunk: its cosine similarity is maximal (Cauchy–Schwarz). -/
theorem simGe_self_max (q : List ℚ) (c d : EmbeddedChunk) (hc : c.vector = q) :
    simGe q c d = true := by
  have hmul : ∀ a b : ℚ, Rat.mul a b = a * b := fun _ _ => rfl
  have hV := dotQ_self_nonneg q
  have hW := dotQ_self_nonneg d.vector
  have hcs := dotQ_sq_le q d.vector
  simp only [simGe, sqrtCmpGe, hc, hmul]
  rw [if_pos hV]
  by_cases hy : 0 ≤ dotQ q d.vector
  · rw [if_pos hy]
    simp only [decide_eq_true_eq]
    nlinarith [hcs, hV, hW]
  · rw [if_neg hy]

theorem insertDesc_perm {α : Type} (r : α → α → Bool) (a : α) (l : List α) :
    List.Perm (insertDesc r a l) (a :: l) := by
  induction l with
  | nil => simp [insertDesc]
  | cons b bs ih =>
      by_cases hr : r a b = true
      · simp [insertDesc, hr]
      · have hr' : r a b = false := by
          cases hc : r a b
          · rfl
          · exact absurd hc hr
        simp only [insertDesc, hr', Bool.false_eq_true, if_false]
        exact (ih.cons b).trans (List.Perm.swap a b bs)

theorem stableSortDesc_perm {α : Type} (r : α → α → Bool) (l : List α) :
    List.Perm (stableSortDesc r l) l := by
  induction l with
  | nil => simp [stableSortDesc]
  | cons a as ih =>
      exact (insertDesc_perm r a (stableSortDesc r as)).trans (ih.cons a)

/-- Head of the stable descending sort: an element that beats every element
of the list, and that is beaten strictly by no earlier element, comes first. -/
theorem stableSortDesc_head {α : Type} (r : α → α → Bool) (x : α) :
    ∀ l₁ l₂ : List α,
    (∀ y ∈ l₁ ++ x :: l₂, r x y = true) →
    (∀ y ∈ l₁, r y x = false) →
    (stableSortDesc r (l₁ ++ x :: l₂)).head? = some x := by
  intro l₁
  induction l₁ with
  | nil =>
      intro l₂ hmax _
      simp only [List.nil_append, stableSortDesc]
      cases hs : stableSortDesc r l₂ with
      | nil => rfl
      | cons b bs =>
          have hb : b ∈ l₂ := (stableSortDesc_perm r l₂).mem_iff.mp (by rw [hs]; simp)
          have hrb : r x b = true := hmax b (by simp [hb])
          simp [insertDesc, hrb]
  | cons a l₁' ih =>
      intro l₂ hmax hbefore
      have hmax' : ∀ y ∈ l₁' ++ x :: l₂, r x y = true := fun y hy =>
        hmax y (by simp [List.mem_append] at hy ⊢; tauto)
      have hbefore' : ∀ y ∈ l₁', r y x = false := fun y hy =>
        hbefore y (List.mem_cons_of_mem a hy)
      have hih := ih l₂ hmax' hbefore'
      simp only [List.cons_append, stableSortDesc]
      cases hs : stableSortDesc r (l₁' ++ x :: l₂) with
      | nil =>
          rw [hs] at hih
          simp at hih
      | cons b bs =>
          rw [hs] at hih
          have hbx : b = x := by simpa using hih
          subst hbx
          have hra : r a b = false := hbefore a (List.mem_cons_self a l₁')
          simp [insertDesc, hra]

/-- C6 (amended): `get_closest_chunks` computes each stored chunk's cosine
similarity to the query, stable-sorts descending and returns the top `k`
stripped of vectors; if the query equals the vector of chunk `c` and every
earlier-inserted chunk has strictly smaller similarity, then `c` ranks first
for any `k ≥ 1`.  (An earlier chunk whose similarity ties — e.g. an identical
vector — ranks first instead, by insertion order.) -/
theorem getClosestChunks_self_query_first (db : DB) (q : List ℚ) (k : Nat)
    (l₁ l₂ : List EmbeddedChunk) (c : EmbeddedChunk)
    (hk : 1 ≤ k)
    (hsplit : db.chunks = l₁ ++ c :: l₂)
    (hq : c.vector = q)
    (hearlier : ∀ d ∈ l₁, simGe q d c = false) :
    (getClosestChunks db q k).head? = some (stripVector c) := by
  have hmax : ∀ y ∈ l₁ ++ c :: l₂, simGe q c y = true := fun y _ =>
    simGe_self_max q c y hq
  have hhead := stableSortDesc_head (simGe q) c l₁ l₂ hmax hearlier
  unfold getClosestChunks
  rw [hsplit]
  cases hs : stableSortDesc (simGe q) (l₁ ++ c :: l₂) with
  | nil => rw [hs] at hhead; simp at hhead
  | cons b bs =>
      rw [hs] at hhead
      have hbc : b = c := by simpa using hhead
      subst hbc
      cases k with
      | zero => exact absurd hk (by simp)
      | succ k' => simp

def exC6c1 : EmbeddedChunk :=
  { id := "c1", note_id := "n", title := "t", text := "x", start_pos := 0,
    end_pos := 1, vector := [1, 0] }

def exC6c2 : EmbeddedChunk :=
  { id := "c2", note_id := "n", title := "t", text := "y", start_pos := 0,
    end_pos := 1, vector := [1, 0] }

/-- C6 counterexample: two chunks stored with the identical vector `[1, 0]`;
the query equals chunk `c2`'s vector, yet `closest(q, 1)` returns chunk `c1`
— the tie at similarity 1 is broken by insertion order, so the chunk whose
vector equals the query does not rank first. -/
theorem getClosestChunks_tie_cex :
    exC6c2.vector = [1, 0] ∧
    (getClosestChunks { chunks := [exC6c1, exC6c2] } [1, 0] 1).map (fun c => c.id)
      = ["c1"] :=
  ⟨rfl, by with_unfolding_all rfl⟩

def exC6low : EmbeddedChunk :=
  { id := "low", note_id := "n", title := "t", text := "x", start_pos := 0,
    end_pos := 1, vector := [0, 1] }

theorem getClosestChunks_self_query_first_witness :
    (getClosestChunks { chunks := [exC6low, exC6c2] } [1, 0] 1).head?
      = some (stripVector exC6c2) :=
  getClosestChunks_self_query_first { chunks := [exC6low, exC6c2] } [1, 0] 1
    [exC6low] [] exC6c2 (by decide) rfl rfl
    (by
      intro d hd
      have hdl : d = exC6low := by simpa using hd
      rw [hdl]
      with_unfolding_all rfl)

def exNoteA8 : Note :=
  { id := "idA", title := "a", path := "a.md", content := "",
    created := 0, modified := 0, inbound_links := ["idB"] }

theorem inboundLinks_match_graph_witness :
    "idB" ∈ exNoteA8.inbound_links ↔
      ∃ r ∈ buildNoteRelationships c8notes,
        r.target_note_id = exNoteA8.id ∧ r.source_note_id = "idB" :=
  inboundLinks_match_graph c8notes exNoteA8
    (by with_unfolding_all exact List.Mem.head _) "idB"

def exFs7 : List String :=
  ["base/notes/img.png", "base/Z - Attachements/img.png"]

theorem resolveImagePath_spec_witness :
    resolveImagePath exFs7 "base" ["Z - Attachements"] "base/notes/n.md" "img.png"
      = some "base/notes/img.png" :=
  (resolveImagePath_spec exFs7 "base" ["Z - Attachements"] "base/notes/n.md" "img.png").2
    (by with_unfolding_all rfl)

theorem addImage_duplicate_bytes_overwrites_witness :
    getImageIdByPath (addImage (addImage []
        ⟨"h", "noteA", [7, 7], "image/png", "img.png", "x"⟩)
        ⟨"h", "noteB", [7, 7], "image/png", "img2.png", "y"⟩) "noteB" "img2.png"
      = some "h" ∧
    getImageIdByPath (addImage (addImage []
        ⟨"h", "noteA", [7, 7], "image/png", "img.png", "x"⟩)
        ⟨"h", "noteB", [7, 7], "image/png", "img2.png", "y"⟩) "noteA" "img.png"
      = none :=
  ⟨(addImage_duplicate_bytes_overwrites "h" [7, 7] "noteA" "img.png" "noteB" "img2.png"
      "image/png" "image/png" "x" "y" (by decide)).1,
   (addImage_duplicate_bytes_overwrites "h" [7, 7] "noteA" "img.png" "noteB" "img2.png"
      "image/png" "image/png" "x" "y" (by decide)).2.1⟩

def c1params : IngestParams where
  md5 p := "md5:" ++ p
  sha256 p := "sha:" ++ p
  embed _ := []
  tok := charTok
  maxTokens := 6
  overlap := 100
  rewriteImagePaths c _ := c
  mediaStep i _ _ := i

/-- C1 counterexample: on the content `"# A\nxx\n# B\nyy"` with a one-token-
per-character tokenizer, `max_tokens = 6` and `overlap = 100`, the chunker's
pre-overlap slices are `"# A\nxx"` and `"# B\nyy"`; the first occurrence of
the second slice searched forward from the first chunk's end `6` is at
position `7`, yet the stored second chunk carries `start_pos = -1` (and
`end_pos = 31`), because the search uses the chunk text with its
`"Previous context: "` block prepended. -/
theorem buildChunks_positions_cex :
    chunkTextNoOverlap c1params.tok c1params.maxTokens "# A\nxx\n# B\nyy"
        = ["# A\nxx", "# B\nyy"] ∧
    pyFind "# A\nxx\n# B\nyy" "# B\nyy" 6 = 7 ∧
    (buildChunks c1params "# A\nxx\n# B\nyy" "n" "t").map
        (fun ch => (ch.start_pos, ch.end_pos)) = [(0, 6), (-1, 31)] :=
  ⟨by with_unfolding_all rfl, by with_unfolding_all rfl, by with_unfolding_all rfl⟩

theorem buildChunks_overlap_tail_neg_witness :
    c1params.overlap ≠ 0 ∧
    (∀ ch ∈ (buildChunks c1params "# A\nxx\n# B\nyy" "n" "t").drop 1,
      ch.start_pos = -1 ∧ ch.end_pos = -1 + (ch.text.data.length : Int)) :=
  ⟨by decide,
   buildChunks_overlap_tail_neg c1params "# A\nxx\n# B\nyy" "n" "t"
     (by decide) (by decide) (by with_unfolding_all rfl)⟩

/-- A malformed file anywhere in the per-file loop makes the whole loop
return an error: there is no per-file exception handler, so the first raise
aborts `_process_modified_files`. -/
theorem processModifiedFilesAux_error_of_bad (params : IngestParams) :
    ∀ (files : List MdFile) (acc : List Note × List EmbeddedChunk × ImageStoreState)
      (f : MdFile), f ∈ files → utf8Decode f.bytes = none →
      ∃ e, processModifiedFilesAux params files acc = .error e := by
  intro files
  induction files with
  | nil =>
      intro acc f hf _
      simp at hf
  | cons f0 rest ih =>
      intro acc f hf hbad
      obtain ⟨notes, chunks, imgs⟩ := acc
      rcases List.mem_cons.mp hf with rfl | hf'
      · refine ⟨"UnicodeDecodeError: " ++ f.relPath, ?_⟩
        simp only [processModifiedFilesAux, processFileContent, hbad]
      · cases hpc : processFileContent params imgs f0 with
        | error e =>
            exact ⟨e, by simp only [processModifiedFilesAux, hpc]⟩
        | ok r =>
            obtain ⟨note, noteChunks, imgs'⟩ := r
            obtain ⟨e, he⟩ := ih
              (upsertNote notes note, noteChunks.foldl upsertChunk chunks, imgs')
              f hf' hbad
            exact ⟨e, by simp only [processModifiedFilesAux, hpc]; exact he⟩

/-- C5 (amended): malformed UTF-8 in a modified note file is not skipped —
`bytes.decode("utf-8")` raises inside `_process_file_content`, nothing
catches the exception, and the whole ingestion pass aborts with the error
before anything is persisted; the remaining files are not processed. -/
theorem ingest_aborts_on_bad_utf8 (params : IngestParams) (db : DB)
    (imgs : ImageStoreState) (folder : Folder) (f : MdFile)
    (hf : f ∈ modifiedFiles db folder) (hbad : utf8Decode f.bytes = none) :
    ∃ e, ingest params db imgs folder = .error e := by
  obtain ⟨e, he⟩ := processModifiedFilesAux_error_of_bad params
    (modifiedFiles db folder) ([], [], imgs) f hf hbad
  refine ⟨e, ?_⟩
  unfold ingest
  rw [he]

def c5fileGood : MdFile :=
  { relPath := "a.md", mtime := 1, ctime := 1, bytes := [35, 32, 65] }

def c5fileBad : MdFile :=
  { relPath := "bad.md", mtime := 1, ctime := 1, bytes := [255] }

def c5folder : Folder :=
  { mdFiles := [c5fileGood, c5fileBad] }

/-- C5 counterexample: a folder holding a well-formed note and a note whose
single byte `255` is malformed UTF-8; the pass does not log-and-skip the bad
file and continue with best-effort results — the whole `ingest` call aborts
with the decode error. -/
theorem ingest_bad_utf8_cex :
    ingest c1params { } [] c5folder = .error "UnicodeDecodeError: bad.md" := by
  with_unfolding_all rfl

/-- Proof-side projection forgetting a note's inbound links. -/
def noteCore (n : Note) : Note := { n with inbound_links := [] }

/-- Proof-side projection forgetting all of a note's derived link fields. -/
def noteBase (n : Note) : Note :=
  { n with outbound_links := [], inbound_links := [], embedded_content := [] }

theorem wbNote_id (upd : List Note) (n : Note) : (wbNote upd n).id = n.id := by
  unfold wbNote
  cases hf : upd.find? (·.id == n.id) with
  | none => rfl
  | some m => simpa using List.find?_some hf

theorem wbNote_idem (upd : List Note) (n : Note) :
    wbNote upd (wbNote upd n) = wbNote upd n := by
  cases hf : upd.find? (·.id == n.id) with
  | none =>
      have h1 : wbNote upd n = n := by unfold wbNote; rw [hf]
      rw [h1, h1]
  | some m =>
      have h1 : wbNote upd n = m := by unfold wbNote; rw [hf]
      have hid : m.id = n.id := by simpa using List.find?_some hf
      rw [h1]
      show wbNote upd m = m
      unfold wbNote
      rw [hid, hf]

theorem writeBackNotes_idem (dbNotes upd : List Note) :
    writeBackNotes (writeBackNotes dbNotes upd) upd = writeBackNotes dbNotes upd := by
  unfold writeBackNotes
  rw [List.map_map]
  exact List.map_congr_left fun n _ => wbNote_idem upd n

theorem findNote_writeBack (dbNotes upd : List Note) (i : String) :
    findNote (writeBackNotes dbNotes upd) i = (findNote dbNotes i).map (wbNote upd) := by
  unfold findNote writeBackNotes
  rw [List.find?_map]
  congr 2
  funext n
  show ((wbNote upd n).id == i) = (n.id == i)
  rw [wbNote_id]

theorem writeBackNotes_map_id (dbNotes upd : List Note) :
    (writeBackNotes dbNotes upd).map (fun n => n.id) = dbNotes.map (fun n => n.id) := by
  unfold writeBackNotes
  rw [List.map_map]
  exact List.map_congr_left fun n _ => wbNote_id upd n

/-- `update_inbound_links` is invisible to any observation that ignores
inbound links. -/
theorem updateInboundLinks_map_blind {α : Type} (g : Note → α)
    (hg : ∀ (n : Note) (x : List String), g { n with inbound_links := x } = g n)
    (ns : List Note) (rels : List NoteRelationship) :
    (updateInboundLinks ns rels).map g = ns.map g := by
  rw [updateInboundLinks_closed, List.map_map]
  exact List.map_congr_left fun n _ => hg n _

theorem findNote_map_core (ns : List Note) (i : String) :
    findNote (ns.map noteCore) i = (findNote ns i).map noteCore := by
  unfold findNote
  rw [List.find?_map]
  congr 2

/-- Auxiliary: `flatMap` over a mapped list. -/
theorem flatMap_map_comp {α β γ : Type} (g : α → β) (f : β → List γ) (l : List α) :
    (l.map g).flatMap f = l.flatMap fun a => f (g a) := by
  induction l with
  | nil => rfl
  | cons a rest ih => simp only [List.map_cons, List.flatMap_cons, ih]

/-- The wikilink edges read nothing from the inbound links. -/
theorem buildNoteRelationships_core (ns : List Note) :
    buildNoteRelationships (ns.map noteCore) = buildNoteRelationships ns := by
  unfold buildNoteRelationships
  rw [flatMap_map_comp]
  congr 1
  funext note
  rw [show (noteCore note).outbound_links = note.outbound_links from rfl]
  refine congrArg (fun h => List.filterMap h note.outbound_links) (funext fun t => ?_)
  rw [findNote_map_core]
  cases findNote ns t with
  | none => rfl
  | some tn => rfl

/-- The folder clusters read nothing from the inbound links. -/
theorem buildNoteClusters_core (ns : List Note) :
    buildNoteClusters (ns.map noteCore) = buildNoteClusters ns := by
  unfold buildNoteClusters
  rw [List.foldl_map]
  exact congrArg (fun h => List.foldl h ([] : List (String × List String)) ns)
    (funext fun cl => funext fun n => rfl)

theorem buildRelationships_core (ns : List Note) :
    buildRelationships (ns.map noteCore) = buildRelationships ns := by
  unfold buildRelationships
  rw [buildNoteRelationships_core, buildNoteClusters_core]

theorem buildRelationships_congr {ns₁ ns₂ : List Note}
    (h : ns₁.map noteCore = ns₂.map noteCore) :
    buildRelationships ns₁ = buildRelationships ns₂ := by
  rw [← buildRelationships_core ns₁, h, buildRelationships_core]

theorem updateInboundLinks_congr {ns₁ ns₂ : List Note}
    (h : ns₁.map noteCore = ns₂.map noteCore) (rels : List NoteRelationship) :
    updateInboundLinks ns₁ rels = updateInboundLinks ns₂ rels := by
  unfold updateInboundLinks
  congr 1

theorem noteCore_stage1 (params : IngestParams) (m : List (String × String)) (n : Note) :
    noteCore (stage1Note params m n) = stage1Note params m (noteCore n) := rfl

theorem noteBase_stage1 (params : IngestParams) (m : List (String × String)) (n : Note) :
    noteBase (stage1Note params m n) = noteBase n := rfl

theorem stage1_idem (params : IngestParams) (m : List (String × String)) (n : Note) :
    stage1Note params m (stage1Note params m n) = stage1Note params m n := rfl

theorem extractAndBuild_fst (params : IngestParams) (m : List (String × String))
    (ns : List Note) :
    (extractAndBuildRelationships params m ns).1
      = buildRelationships (ns.map (stage1Note params m)) := rfl

theorem extractAndBuild_snd (params : IngestParams) (m : List (String × String))
    (ns : List Note) :
    (extractAndBuildRelationships params m ns).2
      = updateInboundLinks (ns.map (stage1Note params m))
          (buildRelationships (ns.map (stage1Note params m))).relationships := rfl

theorem extractAndBuild_snd_core (params : IngestParams) (m : List (String × String))
    (ns : List Note) :
    ((extractAndBuildRelationships params m ns).2).map noteCore
      = (ns.map (stage1Note params m)).map noteCore := by
  rw [extractAndBuild_snd]
  exact updateInboundLinks_map_blind noteCore (fun n x => rfl) _ _

/-- The build phase changes no note field other than the link fields. -/
theorem extractAndBuild_snd_base (params : IngestParams) (m : List (String × String))
    (ns : List Note) :
    ((extractAndBuildRelationships params m ns).2).map noteBase = ns.map noteBase := by
  rw [extractAndBuild_snd]
  rw [updateInboundLinks_map_blind noteBase (fun n x => rfl) _ _]
  rw [List.map_map]
  exact List.map_congr_left fun n _ => noteBase_stage1 params m n

theorem map_stage1_core_swap (params : IngestParams) (m : List (String × String))
    (l : List Note) :
    (l.map (stage1Note params m)).map noteCore
      = (l.map noteCore).map (stage1Note params m) := by
  rw [List.map_map, List.map_map]
  exact List.map_congr_left fun n _ => noteCore_stage1 params m n

/-- Rebuilding from the output of an `update_inbound_links` pass over a
stage-1-stable note list reproduces the same graph and notes. -/
theorem rebuild_fixed (params : IngestParams) (m : List (String × String))
    (s : List Note)
    (hs : (s.map (stage1Note params m)).map noteCore = s.map noteCore) :
    extractAndBuildRelationships params m
        (updateInboundLinks s (buildRelationships s).relationships)
      = (buildRelationships s,
         updateInboundLinks s (buildRelationships s).relationships) := by
  have hcore : ((updateInboundLinks s (buildRelationships s).relationships).map
        (stage1Note params m)).map noteCore = s.map noteCore := by
    calc ((updateInboundLinks s (buildRelationships s).relationships).map
            (stage1Note params m)).map noteCore
        = ((updateInboundLinks s (buildRelationships s).relationships).map
            noteCore).map (stage1Note params m) := map_stage1_core_swap params m _
      _ = (s.map noteCore).map (stage1Note params m) := by
            rw [updateInboundLinks_map_blind noteCore (fun n x => rfl)]
      _ = (s.map (stage1Note params m)).map noteCore :=
            (map_stage1_core_swap params m s).symm
      _ = s.map noteCore := hs
  have hg : buildRelationships
        ((updateInboundLinks s (buildRelationships s).relationships).map
          (stage1Note params m))
      = buildRelationships s := buildRelationships_congr hcore
  refine Prod.ext ?_ ?_
  · rw [extractAndBuild_fst]
    exact hg
  · rw [extractAndBuild_snd, hg]
    exact updateInboundLinks_congr hcore _

/-- Running the relationship-build phase a second time on its own output
returns the same graph and the same notes. -/
theorem extractAndBuild_idem (params : IngestParams) (m : List (String × String))
    (ns : List Note) :
    extractAndBuildRelationships params m ((extractAndBuildRelationships params m ns).2)
      = extractAndBuildRelationships params m ns := by
  have hs : ((ns.map (stage1Note params m)).map (stage1Note params m)).map noteCore
      = (ns.map (stage1Note params m)).map noteCore := by
    rw [List.map_map, List.map_map, List.map_map]
    exact List.map_congr_left fun n _ => congrArg noteCore (stage1_idem params m n)
  rw [extractAndBuild_snd, rebuild_fixed params m (ns.map (stage1Note params m)) hs]
  rfl

theorem dedupFirst_mem_aux :
    ∀ (l acc : List String) (x : String),
      x ∈ l.foldl (fun acc y => if acc.contains y then acc else acc ++ [y]) acc
        ↔ x ∈ acc ∨ x ∈ l := by
  intro l
  induction l with
  | nil => intro acc x; simp
  | cons y rest ih =>
      intro acc x
      rw [List.foldl_cons]
      by_cases hc : acc.contains y = true
      · rw [if_pos hc, ih]
        have hy : y ∈ acc := by simpa using hc
        constructor
        · rintro (h | h)
          · exact Or.inl h
          · exact Or.inr (List.mem_cons_of_mem y h)
        · rintro (h | h)
          · exact Or.inl h
          · rcases List.mem_cons.mp h with rfl | h'
            · exact Or.inl hy
            · exact Or.inr h'
      · rw [if_neg hc, ih]
        simp only [List.mem_append, List.mem_singleton, List.mem_cons]
        tauto

theorem dedupFirst_mem (l : List String) (x : String) :
    x ∈ dedupFirst l ↔ x ∈ l := by
  unfold dedupFirst
  rw [dedupFirst_mem_aux]
  simp

theorem dedupFirst_nodup (l : List String) : (dedupFirst l).Nodup := by
  suffices h : ∀ (l acc : List String), acc.Nodup →
      (l.foldl (fun acc x => if acc.contains x then acc else acc ++ [x]) acc).Nodup by
    exact h l [] List.nodup_nil
  intro l
  induction l with
  | nil => intro acc h; exact h
  | cons x rest ih =>
      intro acc h
      rw [List.foldl_cons]
      by_cases hc : acc.contains x = true
      · rw [if_pos hc]
        exact ih acc h
      · rw [if_neg hc]
        refine ih _ ?_
        have hx : x ∉ acc := by simpa using hc
        simp [List.nodup_append, h, hx]

theorem findNote_some_id (notes : List Note) (i : String) (n : Note)
    (h : findNote notes i = some n) : n.id = i := by
  unfold findNote at h
  simpa using List.find?_some h

theorem findNote_some_mem (notes : List Note) (i : String) (n : Note)
    (h : findNote notes i = some n) : n ∈ notes := by
  unfold findNote at h
  exact List.mem_of_find?_eq_some h

theorem filterMap_findNote_ids (notes : List Note) :
    ∀ ids : List String,
      (ids.filterMap (findNote notes)).map (fun n => n.id)
        = ids.filter fun i => (findNote notes i).isSome := by
  intro ids
  induction ids with
  | nil => rfl
  | cons i rest ih =>
      rw [List.filterMap_cons, List.filter_cons]
      cases h : findNote notes i with
      | none => simpa using ih
      | some n =>
          have hid : n.id = i := findNote_some_id notes i n h
          simp only [Option.isSome_some, if_true, List.map_cons, hid, ih]

theorem nodup_map_id_inj :
    ∀ (l : List Note), ((l.map fun n => n.id).Nodup) →
      ∀ {x y : Note}, x ∈ l → y ∈ l → x.id = y.id → x = y := by
  intro l
  induction l with
  | nil => intro _ x y hx; simp at hx
  | cons a rest ih =>
      intro hnd x y hx hy hid
      rw [List.map_cons, List.nodup_cons] at hnd
      obtain ⟨hna, hrest⟩ := hnd
      rcases List.mem_cons.mp hx with rfl | hx' <;>
        rcases List.mem_cons.mp hy with rfl | hy'
      · rfl
      · exact absurd (hid ▸ List.mem_map_of_mem (fun n => n.id) hy') hna
      · exact absurd (hid ▸ List.mem_map_of_mem (fun n => n.id) hx') hna
      · exact ih hrest hx' hy' hid

theorem map_wbNote_eq_updated :
    ∀ (upd orig : List Note),
      upd.map (fun n => n.id) = orig.map (fun n => n.id) →
      ((orig.map fun n => n.id).Nodup) →
      orig.map (wbNote upd) = upd := by
  intro upd
  induction upd with
  | nil =>
      intro orig hids _
      cases orig with
      | nil => rfl
      | cons a l => simp at hids
  | cons u us ih =>
      intro orig hids hnd
      cases orig with
      | nil => simp at hids
      | cons m ms =>
          simp only [List.map_cons, List.cons.injEq] at hids
          obtain ⟨hidu, hrest⟩ := hids
          rw [List.map_cons, List.nodup_cons] at hnd
          obtain ⟨hna, hndrest⟩ := hnd
          rw [List.map_cons]
          have hhead : wbNote (u :: us) m = u := by
            unfold wbNote
            rw [List.find?_cons_of_pos _ (by simp [hidu])]
          have hstep : ∀ x ∈ ms, wbNote (u :: us) x = wbNote us x := by
            intro x hx
            unfold wbNote
            have hne : (u.id == x.id) = false := by
              cases hbe : (u.id == x.id)
              · rfl
              · exfalso
                have heq : u.id = x.id := by simpa using hbe
                rw [hidu] at heq
                exact hna (heq ▸ List.mem_map_of_mem (fun n => n.id) hx)
            rw [List.find?_cons_of_neg _ (by simp [hne])]
          rw [List.map_congr_left hstep, hhead, ih ms hrest hndrest]

theorem foldl_update_notes (nn : List Note) :
    ∀ db : DB,
      (nn.foldl (fun db n => updateNote (deleteChunksForNote db n.id) n) db).notes
        = nn.foldl upsertNote db.notes := by
  induction nn with
  | nil => intro db; rfl
  | cons n rest ih =>
      intro db
      rw [List.foldl_cons, List.foldl_cons, ih]
      rfl

theorem foldl_addChunk_notes (nc : List EmbeddedChunk) :
    ∀ db : DB, (nc.foldl addChunk db).notes = db.notes := by
  induction nc with
  | nil => intro db; rfl
  | cons c rest ih =>
      intro db
      rw [List.foldl_cons, ih]
      rfl

theorem foldl_upsertNote_fresh :
    ∀ (l acc : List Note),
      (∀ n ∈ l, acc.any (fun m => m.id == n.id) = false) →
      ((l.map fun n => n.id).Nodup) →
      l.foldl upsertNote acc = acc ++ l := by
  intro l
  induction l with
  | nil => intro acc _ _; simp
  | cons n rest ih =>
      intro acc hfresh hnd
      rw [List.map_cons, List.nodup_cons] at hnd
      obtain ⟨hna, hndrest⟩ := hnd
      have hn : acc.any (fun m => m.id == n.id) = false :=
        hfresh n (List.mem_cons_self n rest)
      have hup : upsertNote acc n = acc ++ [n] := by
        unfold upsertNote
        rw [hn]
        simp
      have hfresh' : ∀ x ∈ rest, (acc ++ [n]).any (fun m => m.id == x.id) = false := by
        intro x hx
        rw [List.any_append, hfresh x (List.mem_cons_of_mem n hx)]
        simp only [Bool.false_or, List.any_cons, List.any_nil, Bool.or_false]
        cases hbe : (n.id == x.id)
        · rfl
        · exfalso
          have heq : n.id = x.id := by simpa using hbe
          exact hna (heq ▸ List.mem_map_of_mem (fun m => m.id) hx)
      rw [List.foldl_cons, hup, ih (acc ++ [n]) hfresh' hndrest]
      simp

theorem maxModifiedDB_eq_fold (db : DB) :
    maxModifiedDB db = (db.notes.map fun n => n.modified).foldl
      (fun acc v => if v > acc then v else acc) 0 := by
  unfold maxModifiedDB
  rw [List.foldl_map]

theorem qfold_ge_init :
    ∀ (l : List ℚ) (a : ℚ),
      a ≤ l.foldl (fun acc v => if v > acc then v else acc) a := by
  intro l
  induction l with
  | nil => intro a; exact le_refl a
  | cons v rest ih =>
      intro a
      rw [List.foldl_cons]
      refine le_trans ?_ (ih _)
      by_cases h : v > a
      · rw [if_pos h]
        exact le_of_lt h
      · rw [if_neg h]

theorem qfold_ge_mem :
    ∀ (l : List ℚ) (a v : ℚ), v ∈ l →
      v ≤ l.foldl (fun acc w => if w > acc then w else acc) a := by
  intro l
  induction l with
  | nil => intro a v h; simp at h
  | cons w rest ih =>
      intro a v hv
      rw [List.foldl_cons]
      rcases List.mem_cons.mp hv with rfl | hv'
      · refine le_trans ?_ (qfold_ge_init rest _)
        by_cases h : v > a
        · rw [if_pos h]
        · rw [if_neg h]
          exact le_of_not_lt h
      · exact ih _ v hv'

theorem processFileContent_ok_shape (params : IngestParams) (imgs : ImageStoreState)
    (f : MdFile) (note : Note) (ncs : List EmbeddedChunk) (imgs' : ImageStoreState)
    (h : processFileContent params imgs f = .ok (note, ncs, imgs')) :
    note.id = params.md5 f.relPath ∧ note.modified = f.mtime := by
  unfold processFileContent at h
  cases hd : utf8Decode f.bytes with
  | none => rw [hd] at h; cases h
  | some content0 =>
      rw [hd] at h
      simp only [Except.ok.injEq, Prod.mk.injEq] at h
      obtain ⟨h1, _, _⟩ := h
      subst h1
      exact ⟨rfl, rfl⟩

theorem processModifiedFilesAux_pairs (params : IngestParams) :
    ∀ (files : List MdFile) (notes : List Note) (chunks : List EmbeddedChunk)
      (imgs : ImageStoreState) (outN : List Note) (outC : List EmbeddedChunk)
      (outI : ImageStoreState),
      processModifiedFilesAux params files (notes, chunks, imgs) = .ok (outN, outC, outI) →
      ((notes.map fun n => n.id) ++ files.map fun f => params.md5 f.relPath).Nodup →
      outN.map (fun n => (n.id, n.modified))
        = notes.map (fun n => (n.id, n.modified))
          ++ files.map fun f => (params.md5 f.relPath, f.mtime) := by
  intro files
  induction files with
  | nil =>
      intro notes chunks imgs outN outC outI h _
      simp only [processModifiedFilesAux, Except.ok.injEq, Prod.mk.injEq] at h
      obtain ⟨h1, _, _⟩ := h
      subst h1
      simp
  | cons f0 rest ih =>
      intro notes chunks imgs outN outC outI h hnd
      simp only [processModifiedFilesAux] at h
      cases hpc : processFileContent params imgs f0 with
      | error e => rw [hpc] at h; cases h
      | ok r =>
          obtain ⟨note, ncs, imgs'⟩ := r
          rw [hpc] at h
          dsimp only at h
          obtain ⟨hid, hmod⟩ := processFileContent_ok_shape params imgs f0 note ncs imgs' hpc
          have hni : note.id ∉ notes.map fun n => n.id := by
            rw [hid]
            intro hmem
            exact (List.disjoint_of_nodup_append hnd) hmem (by simp)
          have hfresh : notes.any (fun m => m.id == note.id) = false := by
            rw [List.any_eq_false]
            intro n hn
            cases hbe : (n.id == note.id)
            · simp
            · exfalso
              have heq : n.id = note.id := by simpa using hbe
              exact hni (heq ▸ List.mem_map_of_mem (fun n => n.id) hn)
          have hup : upsertNote notes note = notes ++ [note] := by
            unfold upsertNote
            rw [hfresh]
            simp
          rw [hup] at h
          have hnd' : (((notes ++ [note]).map fun n => n.id)
              ++ rest.map fun f => params.md5 f.relPath).Nodup := by
            simp only [List.map_append, List.map_cons, List.map_nil, List.append_assoc,
              List.singleton_append, hid] at hnd ⊢
            simpa using hnd
          have hres := ih (notes ++ [note]) _ imgs' outN outC outI h hnd'
          rw [hres]
          simp [List.map_append, hid, hmod]

/-- Proof-side name: the store state after the write phase of a pass that
started from the empty store. -/
def passWriteDB (nn : List Note) (nc : List EmbeddedChunk) : DB :=
  nc.foldl addChunk (nn.foldl (fun db n => updateNote (deleteChunksForNote db n.id) n) { })

/-- Proof-side name: the relationship phase of a pass, as a function of the
store state it reads. -/
def passGraphPhase (params : IngestParams) (folder : Folder) (db : DB) :
    RelationshipGraph × List Note :=
  extractAndBuildRelationships params (pathToFileMapping params folder)
    (getNotesByIds db (currentNoteIds params folder))

theorem ingestOk_from_empty (params : IngestParams) (folder : Folder)
    (nn : List Note) (nc : List EmbeddedChunk) :
    ingestOk params { } folder nn nc
      = { passWriteDB nn nc with
          notes := writeBackNotes (passWriteDB nn nc).notes
            (passGraphPhase params folder (passWriteDB nn nc)).2,
          graph := (passGraphPhase params folder (passWriteDB nn nc)).1 } := rfl

theorem ingestOk_no_changes (params : IngestParams) (db : DB) (folder : Folder)
    (hdel : ((getAllNoteIds db).filter fun i => !(currentNoteIds params folder).contains i) = []) :
    ingestOk params db folder [] []
      = { db with
          notes := writeBackNotes db.notes (passGraphPhase params folder db).2,
          graph := (passGraphPhase params folder db).1 } := by
  unfold ingestOk passGraphPhase
  dsimp only
  rw [hdel]
  rfl

theorem passWriteDB_notes (nn : List Note) (nc : List EmbeddedChunk)
    (hnd : ((nn.map fun n => n.id).Nodup)) :
    (passWriteDB nn nc).notes = nn := by
  unfold passWriteDB
  rw [foldl_addChunk_notes, foldl_update_notes]
  rw [show (({ } : DB)).notes = [] from rfl]
  rw [foldl_upsertNote_fresh nn [] (fun n _ => rfl) hnd]
  simp

theorem getNotesByIds_sub (db : DB) (ids : List String) :
    ∀ m ∈ getNotesByIds db ids, m ∈ db.notes := by
  intro m hm
  unfold getNotesByIds at hm
  obtain ⟨i, _, hfind⟩ := List.mem_filterMap.mp hm
  exact findNote_some_mem db.notes i m hfind

/-- Fetching the same ids after the write-back returns exactly the written
notes, provided they carry the ids of the fetched originals and those ids
are distinct. -/
theorem filterMap_findNote_writeBack (dbNotes : List Note) (ids : List String)
    (upd : List Note)
    (hids : upd.map (fun n => n.id) = (ids.filterMap (findNote dbNotes)).map fun n => n.id)
    (hnd : ids.Nodup) :
    ids.filterMap (findNote (writeBackNotes dbNotes upd)) = upd := by
  have h1 : findNote (writeBackNotes dbNotes upd)
      = fun i => (findNote dbNotes i).map (wbNote upd) :=
    funext fun i => findNote_writeBack dbNotes upd i
  rw [h1, ← List.map_filterMap]
  refine map_wbNote_eq_updated upd _ hids ?_
  rw [filterMap_findNote_ids]
  exact hnd.filter _

/-- The relationship phase reads the fetched notes; after the write-back,
fetching again returns the phase's own output. -/
theorem second_fetch_pipeline (params : IngestParams) (mapping : List (String × String))
    (dbA : DB) (ids : List String) (hndIds : ids.Nodup) (C : List EmbeddedChunk)
    (G : RelationshipGraph) :
    getNotesByIds
        { notes := writeBackNotes dbA.notes
            (extractAndBuildRelationships params mapping (getNotesByIds dbA ids)).2,
          chunks := C, graph := G }
        ids
      = (extractAndBuildRelationships params mapping (getNotesByIds dbA ids)).2 := by
  show ids.filterMap (findNote (writeBackNotes dbA.notes _)) = _
  refine filterMap_findNote_writeBack dbA.notes ids _ ?_ hndIds
  have hb := extractAndBuild_snd_base params mapping (getNotesByIds dbA ids)
  have h := congrArg (List.map fun n => n.id) hb
  rw [List.map_map, List.map_map] at h
  exact h

/-- The write-back never changes a note's `modified` timestamp: the written
notes agree with stored originals on everything but the link fields. -/
theorem writeBack_modified_preserved (dbNotes upd orig : List Note)
    (hnd : ((dbNotes.map fun n => n.id).Nodup))
    (hsub : ∀ m ∈ orig, m ∈ dbNotes)
    (hbase : upd.map noteBase = orig.map noteBase) :
    (writeBackNotes dbNotes upd).map (fun n => n.modified)
      = dbNotes.map fun n => n.modified := by
  unfold writeBackNotes
  rw [List.map_map]
  refine List.map_congr_left fun n hn => ?_
  show (wbNote upd n).modified = n.modified
  unfold wbNote
  cases hf : upd.find? (·.id == n.id) with
  | none => rfl
  | some n' =>
      have hid' : n'.id = n.id := by simpa using List.find?_some hf
      have hmem' : n' ∈ upd := List.mem_of_find?_eq_some hf
      have hnb : noteBase n' ∈ orig.map noteBase := by
        rw [← hbase]
        exact List.mem_map_of_mem noteBase hmem'
      obtain ⟨m, hm, hbm⟩ := List.mem_map.mp hnb
      have hmmem : m ∈ dbNotes := hsub m hm
      have hidm : m.id = n'.id := congrArg (fun x => x.id) hbm
      have hmn : m = n := nodup_map_id_inj dbNotes hnd hmmem hn (hidm.trans hid')
      have hmods : m.modified = n'.modified := congrArg (fun x => x.modified) hbm
      rw [← hmods, hmn]

/-- C2 (amended): `LocalVectorDB.save` persists the in-memory documents
as-is — it sorts neither the relationship edges nor the clusters — and the
claimed determinism holds without any sorting: starting from an empty
vector store, running `ingest` a second time over an unchanged folder whose
note ids are distinct leaves the persisted vector-store and media-store
documents bit-identical, including the order of the relationship-graph
fields. -/
theorem ingest_second_pass_identical (params : IngestParams)
    (imgs0 : ImageStoreState) (folder : Folder)
    (db1 db2 : DB) (img1 img2 : ImageStoreState)
    (hnodup : ((allMarkdownFiles folder).map fun f => params.md5 f.relPath).Nodup)
    (h1 : ingest params { } imgs0 folder = .ok (db1, img1))
    (h2 : ingest params db1 img1 folder = .ok (db2, img2)) :
    persistedDocs db2 img2 = persistedDocs db1 img1 := by
  unfold ingest at h1
  cases hpm1 : processModifiedFilesAux params (modifiedFiles { } folder) ([], [], imgs0) with
  | error e =>
      rw [hpm1] at h1
      cases h1
  | ok r1 =>
  obtain ⟨nn, nc, im1⟩ := r1
  rw [hpm1] at h1
  dsimp only at h1
  simp only [Except.ok.injEq, Prod.mk.injEq] at h1
  obtain ⟨hdb1, himg1⟩ := h1
  subst himg1
  rw [ingestOk_from_empty] at hdb1
  -- facts about the first pass's processed files
  have hmodfilter : modifiedFiles ({ } : DB) folder
      = (allMarkdownFiles folder).filter fun f => decide (maxModifiedDB { } < f.mtime) := rfl
  have hndmod : (((modifiedFiles ({ } : DB) folder).map fun f => params.md5 f.relPath).Nodup) := by
    have hsub : List.Sublist
        ((modifiedFiles ({ } : DB) folder).map fun f => params.md5 f.relPath)
        ((allMarkdownFiles folder).map fun f => params.md5 f.relPath) := by
      refine List.Sublist.map _ ?_
      rw [hmodfilter]
      exact List.filter_sublist _
    exact hnodup.sublist hsub
  have hpairs : nn.map (fun n => (n.id, n.modified))
      = (modifiedFiles ({ } : DB) folder).map fun f => (params.md5 f.relPath, f.mtime) := by
    have h := processModifiedFilesAux_pairs params (modifiedFiles ({ } : DB) folder)
      [] [] imgs0 nn nc im1 hpm1 (by simpa using hndmod)
    simpa using h
  have hidsNN : nn.map (fun n => n.id)
      = (modifiedFiles ({ } : DB) folder).map fun f => params.md5 f.relPath := by
    have h := congrArg (List.map Prod.fst) hpairs
    rw [List.map_map, List.map_map] at h
    exact h
  have hndNN : ((nn.map fun n => n.id).Nodup) := by
    rw [hidsNN]
    exact hndmod
  have hdbAnotes : (passWriteDB nn nc).notes = nn := passWriteDB_notes nn nc hndNN
  have hnddbA : (((passWriteDB nn nc).notes.map fun n => n.id).Nodup) := by
    rw [hdbAnotes]
    exact hndNN
  -- components of the first pass's result
  have hdb1notes : db1.notes = writeBackNotes (passWriteDB nn nc).notes
      (passGraphPhase params folder (passWriteDB nn nc)).2 := by
    rw [← hdb1]
  have hdb1graph : db1.graph = (passGraphPhase params folder (passWriteDB nn nc)).1 := by
    rw [← hdb1]
  have hdb1chunks : db1.chunks = (passWriteDB nn nc).chunks := by
    rw [← hdb1]
  -- the second pass sees no modified files
  have hmodseq : db1.notes.map (fun n => n.modified)
      = (passWriteDB nn nc).notes.map fun n => n.modified := by
    rw [hdb1notes]
    exact writeBack_modified_preserved (passWriteDB nn nc).notes _
      (getNotesByIds (passWriteDB nn nc) (currentNoteIds params folder))
      hnddbA (getNotesByIds_sub _ _)
      (extractAndBuild_snd_base params _ _)
  have hmax0 : (0 : ℚ) ≤ maxModifiedDB db1 := by
    rw [maxModifiedDB_eq_fold]
    exact qfold_ge_init _ 0
  have hmtimes : ∀ f ∈ allMarkdownFiles folder, f.mtime ≤ maxModifiedDB db1 := by
    intro f hf
    by_cases h0 : (0 : ℚ) < f.mtime
    · have hfm : f ∈ modifiedFiles ({ } : DB) folder := by
        rw [hmodfilter, List.mem_filter]
        refine ⟨hf, ?_⟩
        rw [show maxModifiedDB ({ } : DB) = 0 from rfl]
        exact decide_eq_true h0
      have hp : (params.md5 f.relPath, f.mtime) ∈ nn.map fun n => (n.id, n.modified) := by
        rw [hpairs]
        exact List.mem_map_of_mem _ hfm
      obtain ⟨n, hnmem, hneq⟩ := List.mem_map.mp hp
      have hnm : n.modified = f.mtime := congrArg Prod.snd hneq
      have hmm : n.modified ∈ db1.notes.map fun m => m.modified := by
        rw [hmodseq, hdbAnotes]
        exact List.mem_map_of_mem _ hnmem
      rw [← hnm, maxModifiedDB_eq_fold]
      exact qfold_ge_mem _ 0 n.modified hmm
    · exact le_trans (le_of_not_lt h0) hmax0
  have hmod2 : modifiedFiles db1 folder = [] := by
    rw [show modifiedFiles db1 folder
      = (allMarkdownFiles folder).filter (fun f => decide (maxModifiedDB db1 < f.mtime)) from rfl]
    rw [List.filter_eq_nil_iff]
    intro f hf
    simp only [decide_eq_true_eq]
    exact not_lt.mpr (hmtimes f hf)
  -- the second pass deletes nothing
  have hdel2 : ((getAllNoteIds db1).filter fun i => !(currentNoteIds params folder).contains i) = [] := by
    rw [List.filter_eq_nil_iff]
    intro i hi
    rw [show getAllNoteIds db1 = db1.notes.map (fun n => n.id) from rfl] at hi
    rw [hdb1notes, writeBackNotes_map_id, hdbAnotes, hidsNN] at hi
    obtain ⟨f, hfm, rfl⟩ := List.mem_map.mp hi
    have hfmds : f ∈ allMarkdownFiles folder := by
      rw [hmodfilter] at hfm
      exact List.mem_of_mem_filter hfm
    have hmem : params.md5 f.relPath ∈ currentNoteIds params folder := by
      rw [show currentNoteIds params folder
        = dedupFirst ((allMarkdownFiles folder).map fun g => params.md5 g.relPath) from rfl]
      rw [dedupFirst_mem]
      exact List.mem_map_of_mem _ hfmds
    have hc : (currentNoteIds params folder).contains (params.md5 f.relPath) = true :=
      List.elem_eq_true_of_mem hmem
    rw [hc]
    simp
  -- second pass unpacking
  unfold ingest at h2
  rw [hmod2] at h2
  simp only [processModifiedFilesAux, Except.ok.injEq, Prod.mk.injEq] at h2
  obtain ⟨hdb2, himg2⟩ := h2
  subst himg2
  rw [ingestOk_no_changes params db1 folder hdel2] at hdb2
  -- the second fetch returns the first pass's pipeline output
  have hdb1R : db1 = { notes := writeBackNotes (passWriteDB nn nc).notes (passGraphPhase params folder (passWriteDB nn nc)).2, chunks := (passWriteDB nn nc).chunks, graph := (passGraphPhase params folder (passWriteDB nn nc)).1 } := by
    rw [← hdb1]
  have hfetch2 : getNotesByIds db1 (currentNoteIds params folder)
      = (passGraphPhase params folder (passWriteDB nn nc)).2 := by
    have hcurnd : (currentNoteIds params folder).Nodup := dedupFirst_nodup _
    have hsf := second_fetch_pipeline params (pathToFileMapping params folder)
      (passWriteDB nn nc) (currentNoteIds params folder) hcurnd
      (passWriteDB nn nc).chunks (passGraphPhase params folder (passWriteDB nn nc)).1
    rw [hdb1R]
    exact hsf
  have hgp2 : passGraphPhase params folder db1
      = passGraphPhase params folder (passWriteDB nn nc) := by
    unfold passGraphPhase
    rw [hfetch2]
    exact extractAndBuild_idem params (pathToFileMapping params folder)
      (getNotesByIds (passWriteDB nn nc) (currentNoteIds params folder))
  -- conclude: the second pass writes back the same store
  have hdb2v : db2 = db1 := by
    rw [← hdb2, hgp2]
    have hnotes : writeBackNotes db1.notes (passGraphPhase params folder (passWriteDB nn nc)).2
        = db1.notes := by
      rw [hdb1notes]
      exact writeBackNotes_idem _ _
    rw [hnotes, ← hdb1graph]
  rw [hdb2v]

theorem ingest_aborts_on_bad_utf8_witness :
    c5fileBad ∈ modifiedFiles { } c5folder ∧
    utf8Decode c5fileBad.bytes = none ∧
    ∃ e, ingest c1params { } [] c5folder = .error e :=
  ⟨by with_unfolding_all exact List.Mem.tail _ (List.Mem.head _),
   by with_unfolding_all rfl,
   ingest_aborts_on_bad_utf8 c1params { } [] c5folder c5fileBad
     (by with_unfolding_all exact List.Mem.tail _ (List.Mem.head _))
     (by with_unfolding_all rfl)⟩

/-- Spec-side ordering (written from the claim's words, for comparison with
the source): `(source, target)` lexicographic order on edges. -/
def specPairLe (a b : String × String) : Bool :=
  a.1 < b.1 || (a.1 == b.1 && a.2 ≤ b.2)

/-- Spec-side predicate (from the claim's words): the persisted edge list is
sorted by `(source, target)`. -/
def specEdgesSorted : List NoteRelationship → Bool
  | [] => true
  | [_] => true
  | a :: b :: rest =>
      specPairLe (a.source_note_id, a.target_note_id)
          (b.source_note_id, b.target_note_id)
        && specEdgesSorted (b :: rest)

def c2md5 (s : String) : String :=
  if s == "b.md" then "idB" else if s == "a.md" then "idA" else "id-" ++ s

def c2params : IngestParams where
  md5 := c2md5
  sha256 s := "sha-" ++ s
  embed _ := [1]
  tok := charTok
  maxTokens := 1000
  overlap := 100
  rewriteImagePaths c _ := c
  mediaStep st _ _ := st

def c2fileB : MdFile :=
  { relPath := "b.md", mtime := 2, ctime := 2, bytes := [91, 91, 97, 93, 93] }

def c2fileA : MdFile :=
  { relPath := "a.md", mtime := 1, ctime := 1, bytes := [91, 91, 98, 93, 93] }

def c2folder : Folder := { mdFiles := [c2fileB, c2fileA] }

/-- C2 counterexample: nothing sorts the edges by `(source, target)` before
persisting — one pass over a two-note folder (`b.md` linking `[[a]]`,
`a.md` linking `[[b]]`) persists the edge list
`[("idB", "idA"), ("idA", "idB")]` in build order, which is not sorted by
`(source, target)`. -/
theorem ingest_edges_not_sorted_cex :
    (ingest c2params { } [] c2folder).map
        (fun r => r.1.graph.relationships.map fun e => (e.source_note_id, e.target_note_id))
      = .ok [("idB", "idA"), ("idA", "idB")] ∧
    (ingest c2params { } [] c2folder).map
        (fun r => specEdgesSorted r.1.graph.relationships) = .ok false :=
  ⟨by with_unfolding_all rfl, by with_unfolding_all rfl⟩

def c2run1 : DB × ImageStoreState :=
  ((ingest c2params { } [] c2folder).toOption).getD ({ }, [])

def c2run2 : DB × ImageStoreState :=
  ((ingest c2params c2run1.1 c2run1.2 c2folder).toOption).getD ({ }, [])

theorem ingest_second_pass_identical_witness :
    persistedDocs c2run2.1 c2run2.2 = persistedDocs c2run1.1 c2run1.2 :=
  ingest_second_pass_identical c2params [] c2folder c2run1.1 c2run2.1 c2run1.2 c2run2.2
    (by with_unfolding_all decide)
    (by with_unfolding_all rfl)
    (by with_unfolding_all rfl)

end Jesktop
